import Mathlib

/-!
Shallow embedding of the LSIF graph database (`JsonDatabase`) of this
repository: the data model, ingestion of the vertex/edge stream, and the
query API (`declarations`, `definitions`, `references`, `allDefinitions`).

Modelling conventions:
* a JS `Map` becomes an association list; `Map.set` conses a binding and
  `Map.get` takes the first binding, which preserves overwrite semantics;
* MD5 content keys (`Locations.makeKey`, the moniker identity key) are
  modelled by the hashed record itself, i.e. the hash is treated as
  collision-free;
* the unbounded `do ... while (true)` walk in `getResultPath`, the
  recursion of `resolveReferenceResult` and the growing `for ... of`
  moniker worklist in `references` take an explicit fuel argument;
  `none` (resp. an unchanged state) marks fuel exhaustion, where the
  source would still be running;
* in-place object mutation (the moniker `key` assignment, document URI
  normalisation) is made explicit by storing the updated vertex;
* `throw new Error(msg)` becomes `Except.error msg`; the non-null
  assertion in `addLocation` on a missing parent document would crash at
  runtime and is modelled as contributing no location.
-/

/-- Identifier of a vertex (`Id` of the exchange format). -/
abbrev LsifId := Nat

/-- A source position (`types.Position`). -/
structure Position where
  line : Nat
  character : Nat
deriving DecidableEq

/-- A source span (`types.Range`). -/
structure SrcRange where
  start : Position
  «end» : Position
deriving DecidableEq

/-- A result location (`types.Location`). -/
structure TLocation where
  uri : String
  range : SrcRange
deriving DecidableEq

/-- Moniker kinds of the exchange format. -/
inductive MonikerKind
  | «local»
  | «import»
  | «export»
deriving DecidableEq

/-- The moniker identity key: MD5 of the JSON record
`{s: scheme, i: identifier}`, modelled as the pair itself. -/
abbrev MonikerKey := String × String

/-- A moniker with its computed identity key (`MonikerAndKey`).  The
source casts arbitrary vertices to this interface, so every field that a
cast could leave undefined is an `Option`. -/
structure MonikerAndKey where
  id : LsifId
  scheme : Option String
  identifier : Option String
  kind : Option MonikerKind
  key : Option MonikerKey
deriving DecidableEq

/-- A vertex record of the exchange format, one constructor per label
the database distinguishes.  `unknownVertex` stands for every label
outside the recognised set. -/
inductive Vertex
  | metaData (id : LsifId) (projectRoot : Option String)
  | project (id : LsifId)
  | document (id : LsifId) (uri : String) (contents : Option String)
  | range (id : LsifId) (start «end» : Position)
  | moniker (id : LsifId) (scheme identifier : String) (kind : MonikerKind)
      (key : Option MonikerKey)
  | packageInformation (id : LsifId)
  | definitionResult (id : LsifId)
  | declarationResult (id : LsifId)
  | referenceResult (id : LsifId)
  | implementationResult (id : LsifId)
  | resultSet (id : LsifId)
  | hoverResult (id : LsifId)
  | unknownVertex (id : LsifId) (label : String)
deriving DecidableEq

/-- The `id` attribute shared by every vertex variant. -/
def Vertex.id : Vertex → LsifId
  | .metaData i _ => i
  | .project i => i
  | .document i _ _ => i
  | .range i _ _ => i
  | .moniker i _ _ _ _ => i
  | .packageInformation i => i
  | .definitionResult i => i
  | .declarationResult i => i
  | .referenceResult i => i
  | .implementationResult i => i
  | .resultSet i => i
  | .hoverResult i => i
  | .unknownVertex i _ => i

/-- The label string of a vertex, used in error messages. -/
def Vertex.labelName : Vertex → String
  | .metaData _ _ => "metaData"
  | .project _ => "project"
  | .document _ _ _ => "document"
  | .range _ _ _ => "range"
  | .moniker _ _ _ _ _ => "moniker"
  | .packageInformation _ => "packageInformation"
  | .definitionResult _ => "definitionResult"
  | .declarationResult _ => "declarationResult"
  | .referenceResult _ => "referenceResult"
  | .implementationResult _ => "implementationResult"
  | .resultSet _ => "resultSet"
  | .hoverResult _ => "hoverResult"
  | .unknownVertex _ l => l

/-- The TS cast `v as MonikerAndKey`: a genuine moniker keeps its
fields, any other vertex yields an object whose moniker fields are
undefined. -/
def Vertex.toMonikerAndKey : Vertex → MonikerAndKey
  | .moniker i s idf k key => ⟨i, some s, some idf, some k, key⟩
  | v => ⟨v.id, none, none, none, none⟩

/-- The span of a range vertex (only ever used on range vertices). -/
def Vertex.span : Vertex → SrcRange
  | .range _ s e => ⟨s, e⟩
  | _ => ⟨⟨0, 0⟩, ⟨0, 0⟩⟩

/-- The `start` attribute of a range vertex. -/
def Vertex.startPos : Vertex → Position
  | .range _ s _ => s
  | _ => ⟨0, 0⟩

/-- Item-edge property qualifiers (`ItemEdgeProperties`). -/
inductive ItemEdgeProperty
  | declarations
  | definitions
  | references
  | referenceResults
  | referenceLinks
deriving DecidableEq

/-- A stored `item`-edge target (`ItemTarget`): a bare vertex when the
edge carried no property, else a tagged wrapper. -/
inductive ItemTarget
  | vertex (v : Vertex)
  | declarations (range : Vertex)
  | definitions (range : Vertex)
  | references (range : Vertex)
  | referenceResults (result : Vertex)
  | referenceLinks (result : MonikerAndKey)
deriving DecidableEq

/-- Edge labels of the exchange format (`EdgeLabels`). -/
inductive EdgeLabel
  | contains
  | item
  | next
  | moniker
  | attach
  | packageInformation
  | textDocument_documentSymbol
  | textDocument_foldingRange
  | textDocument_documentLink
  | textDocument_diagnostic
  | textDocument_definition
  | textDocument_declaration
  | textDocument_typeDefinition
  | textDocument_hover
  | textDocument_references
  | textDocument_implementation
deriving DecidableEq

/-- An edge record: `1:1` (`outV`/`inV`) or `1:N` (`outV`/`inVs`), with
the optional `property` of item edges. -/
inductive EdgeRec
  | e11 (label : EdgeLabel) (outV inV : LsifId) (property : Option ItemEdgeProperty)
  | e1N (label : EdgeLabel) (outV : LsifId) (inVs : List LsifId)
      (property : Option ItemEdgeProperty)
deriving DecidableEq

/-- One line of the input stream: a vertex or an edge record. -/
inductive ElementR
  | vertex (v : Vertex)
  | edge (e : EdgeRec)
deriving DecidableEq

/-- Association-list model of `Map.get`: first binding wins, which
matches `Map.set` consing a fresh binding in `mapSet`. -/
def mapGet {β : Type} (m : List (LsifId × β)) (k : LsifId) : Option β :=
  match m with
  | [] => none
  | (a, b) :: rest => if a = k then some b else mapGet rest k

/-- Association-list model of `Map.set` (shadowing cons). -/
def mapSet {β : Type} (m : List (LsifId × β)) (k : LsifId) (v : β) :
    List (LsifId × β) :=
  (k, v) :: m

/-- Model of `mapGet`/`mapSet` over string keys (content and document indices). -/
def smapGet {β : Type} (m : List (String × β)) (k : String) : Option β :=
  match m with
  | [] => none
  | (a, b) :: rest => if a = k then some b else smapGet rest k

/-- Model of `mapSet` over string keys. -/
def smapSet {β : Type} (m : List (String × β)) (k : String) (v : β) :
    List (String × β) :=
  (k, v) :: m

/-- Model of `mapGet`/`mapSet` over moniker keys (the symbol index). -/
def kmapGet {β : Type} (m : List (MonikerKey × β)) (k : MonikerKey) : Option β :=
  match m with
  | [] => none
  | (a, b) :: rest => if a = k then some b else kmapGet rest k

/-- Model of `mapSet` over moniker keys. -/
def kmapSet {β : Type} (m : List (MonikerKey × β)) (k : MonikerKey) (v : β) :
    List (MonikerKey × β) :=
  (k, v) :: m

/-- The per-URI bucket of the document index
(`{hash, documents}` in `Indices.documents`). -/
structure DocumentsEntry where
  hash : String
  documents : List Vertex
deriving DecidableEq

/-- The whole in-memory store of `JsonDatabase`: the generic vertex
table, the typed adjacency (`out`) and reverse-adjacency (`in`) maps,
and the three incremental indices. -/
structure Db where
  workspaceRoot : Option String := none
  verticesAll : List (LsifId × Vertex) := []
  verticesProjects : List (LsifId × Vertex) := []
  verticesDocuments : List (LsifId × Vertex) := []
  verticesRanges : List (LsifId × Vertex) := []
  outContains : List (LsifId × List Vertex) := []
  outItem : List (LsifId × List ItemTarget) := []
  outNext : List (LsifId × Vertex) := []
  outMoniker : List (LsifId × MonikerAndKey) := []
  outDocumentSymbol : List (LsifId × Vertex) := []
  outFoldingRange : List (LsifId × Vertex) := []
  outDocumentLink : List (LsifId × Vertex) := []
  outDiagnostic : List (LsifId × Vertex) := []
  outDeclaration : List (LsifId × Vertex) := []
  outDefinition : List (LsifId × Vertex) := []
  outTypeDefinition : List (LsifId × Vertex) := []
  outHover : List (LsifId × Vertex) := []
  outReferences : List (LsifId × Vertex) := []
  outImplementation : List (LsifId × Vertex) := []
  inContains : List (LsifId × Vertex) := []
  inMoniker : List (LsifId × List Vertex) := []
  idxMonikers : List (MonikerKey × List MonikerAndKey) := []
  idxContents : List (String × String) := []
  idxDocuments : List (String × DocumentsEntry) := []
deriving DecidableEq

/-- The freshly constructed, empty database. -/
def initialDb : Db := {}

/-- URI normalisation `URI.parse(uri).toString(true)`.
Modelled from the spec: the vscode-uri collaborator is not part of the
repository sources; the spec only requires a normalisation applied
consistently at ingestion and query time, modelled here as the identity
function. -/
def parseToString (uri : String) : String := uri

/-- Model of `toDatabase`: normalise a query URI into the stored form. -/
def toDatabase (uri : String) : String := parseToString uri

/-- Model of `fromDatabase`: normalise a stored URI into the returned form. -/
def fromDatabase (uri : String) : String := parseToString uri

/-- The moniker identity key computed in `processVertex`: MD5 of
`{s: scheme, i: identifier}`, modelled as the pair itself. -/
def makeMonikerKey (scheme identifier : String) : MonikerKey :=
  (scheme, identifier)

/-- Model of `processMetaData`: cumulative single-workspace-root validation. -/
def processMetaData (db : Db) (projectRoot : Option String) : Except String Db :=
  match db.workspaceRoot, projectRoot with
  | some w, some p =>
    if p ≠ w then
      .error "Multiple workspace roots found in the same database, you must create another database"
    else .ok { db with workspaceRoot := some p }
  | none, some p => .ok { db with workspaceRoot := some p }
  | _, none => .ok db

/-- Model of `doProcessDocument`: normalise the URI, hash the contents (hash
modelled as the content string itself), and append the document instance
to the per-URI bucket.  A hash mismatch is only a logged warning: both
instances are kept. -/
def doProcessDocument (db : Db) (id : LsifId) (uri : String)
    (contents : Option String) : Db :=
  let document : Vertex := .document id uri contents
  let cts := contents.getD "No content provided."
  let db := { db with verticesDocuments := mapSet db.verticesDocuments id document }
  let hash := cts
  let db := { db with idxContents := smapSet db.idxContents hash cts }
  match smapGet db.idxDocuments uri with
  | none =>
    { db with idxDocuments := smapSet db.idxDocuments uri ⟨hash, [document]⟩ }
  | some value =>
    { db with idxDocuments :=
        smapSet db.idxDocuments uri ⟨value.hash, value.documents ++ [document]⟩ }

/-- Model of `processVertex`: record the vertex in the generic table and dispatch
on its label; labels outside the recognised set abort the load.  The
source's in-place mutations (URI normalisation of documents, the `key`
assignment on non-local monikers) are reflected by storing the updated
vertex in the generic table. -/
def processVertex (db : Db) (element : Vertex) : Except String Db :=
  match element with
  | .metaData i projectRoot =>
    let db := { db with verticesAll := mapSet db.verticesAll i element }
    processMetaData db projectRoot
  | .document i uri contents =>
    let uri := parseToString uri
    let element := Vertex.document i uri contents
    let db := { db with verticesAll := mapSet db.verticesAll i element }
    .ok (doProcessDocument db i uri contents)
  | .range i s e =>
    let db := { db with verticesAll := mapSet db.verticesAll i element }
    .ok { db with verticesRanges := mapSet db.verticesRanges i (.range i s e) }
  | .moniker i scheme identifier kind _ =>
    if kind ≠ .«local» then
      let key := makeMonikerKey scheme identifier
      let element := Vertex.moniker i scheme identifier kind (some key)
      let db := { db with verticesAll := mapSet db.verticesAll i element }
      let values := (kmapGet db.idxMonikers key).getD []
      .ok { db with idxMonikers :=
              kmapSet db.idxMonikers key (values ++ [element.toMonikerAndKey]) }
    else
      .ok { db with verticesAll := mapSet db.verticesAll i element }
  | .packageInformation i =>
    .ok { db with verticesAll := mapSet db.verticesAll i element }
  | .definitionResult i =>
    .ok { db with verticesAll := mapSet db.verticesAll i element }
  | .implementationResult i =>
    .ok { db with verticesAll := mapSet db.verticesAll i element }
  | .resultSet i =>
    .ok { db with verticesAll := mapSet db.verticesAll i element }
  | .referenceResult i =>
    .ok { db with verticesAll := mapSet db.verticesAll i element }
  | .hoverResult i =>
    .ok { db with verticesAll := mapSet db.verticesAll i element }
  | v =>
    let _ := { db with verticesAll := mapSet db.verticesAll v.id v }
    .error ("Unexpected vertex label: " ++ v.labelName)

/-- Model of `doProcessEdge`: both endpoints must already exist; edge labels with
no `case` in the source switch fall through and change nothing. -/
def doProcessEdge (db : Db) (label : EdgeLabel) (outV inV : LsifId)
    (property : Option ItemEdgeProperty) : Except String Db :=
  match mapGet db.verticesAll outV with
  | none => .error ("No vertex found for Id " ++ toString outV)
  | some vfrom =>
  match mapGet db.verticesAll inV with
  | none => .error ("No vertex found for Id " ++ toString inV)
  | some vto =>
  .ok (match label with
  | .contains =>
    let values := (mapGet db.outContains vfrom.id).getD [] ++ [vto]
    let db := { db with outContains := mapSet db.outContains vfrom.id values }
    { db with inContains := mapSet db.inContains vto.id vfrom }
  | .item =>
    let itemTarget : Option ItemTarget :=
      match property with
      | some .references => some (.references vto)
      | some .declarations => some (.declarations vto)
      | some .definitions => some (.definitions vto)
      | some .referenceResults => some (.referenceResults vto)
      | some .referenceLinks => some (.referenceLinks vto.toMonikerAndKey)
      | none => some (.vertex vto)
    match itemTarget with
    | none => db
    | some it =>
      let values := (mapGet db.outItem vfrom.id).getD [] ++ [it]
      { db with outItem := mapSet db.outItem vfrom.id values }
  | .next => { db with outNext := mapSet db.outNext vfrom.id vto }
  | .moniker =>
    let db := { db with outMoniker := mapSet db.outMoniker vfrom.id vto.toMonikerAndKey }
    let values := (mapGet db.inMoniker vto.id).getD [] ++ [vfrom]
    { db with inMoniker := mapSet db.inMoniker vto.id values }
  | .textDocument_documentSymbol =>
    { db with outDocumentSymbol := mapSet db.outDocumentSymbol vfrom.id vto }
  | .textDocument_foldingRange =>
    { db with outFoldingRange := mapSet db.outFoldingRange vfrom.id vto }
  | .textDocument_documentLink =>
    { db with outDocumentLink := mapSet db.outDocumentLink vfrom.id vto }
  | .textDocument_diagnostic =>
    { db with outDiagnostic := mapSet db.outDiagnostic vfrom.id vto }
  | .textDocument_definition =>
    { db with outDefinition := mapSet db.outDefinition vfrom.id vto }
  | .textDocument_typeDefinition =>
    { db with outTypeDefinition := mapSet db.outTypeDefinition vfrom.id vto }
  | .textDocument_hover =>
    { db with outHover := mapSet db.outHover vfrom.id vto }
  | .textDocument_references =>
    { db with outReferences := mapSet db.outReferences vfrom.id vto }
  | _ => db)

/-- Model of `processEdge`: extract the property of item edges and expand `1:N`
edges into one stored relation per target. -/
def processEdge (db : Db) (edge : EdgeRec) : Except String Db :=
  match edge with
  | .e11 label outV inV property =>
    doProcessEdge db label outV inV (if label = .item then property else none)
  | .e1N label outV inVs property =>
    let prop := if label = .item then property else none
    inVs.foldlM (fun d i => doProcessEdge d label outV i prop) db

/-- Model of `load`, with the line-splitting and JSON parsing of the input file
abstracted into a list of already-classified records. -/
def loadElements (db : Db) (elements : List ElementR) : Except String Db :=
  elements.foldlM
    (fun d e =>
      match e with
      | .vertex v => processVertex d v
      | .edge ed => processEdge d ed)
    db

/-- One recorded trail entry of a path resolution
(`ResultPath.path` elements). -/
structure PathStep where
  vertex : LsifId
  moniker : Option MonikerAndKey
deriving DecidableEq

/-- The found result of a path resolution, paired with the moniker
attached directly to the result-bearing vertex. -/
structure ResultFound where
  value : Vertex
  moniker : Option MonikerAndKey
deriving DecidableEq

/-- Model of `ResultPath<T>`: the recorded trail and the optional found result. -/
structure ResultPath where
  path : List PathStep
  result : Option ResultFound
deriving DecidableEq

/-- Model of `getResultPath`: follow `next` edges from `start` until the relation
map has a direct entry (stop with that result) or there is no `next`
edge (stop with no result).  The source loops `do ... while (true)`;
the fuel argument makes the walk total, `none` meaning the fuel ran out
while the source would still be walking. -/
def getResultPath (db : Db) (fuel : Nat) (start : LsifId)
    (edges : List (LsifId × Vertex)) : Option ResultPath :=
  match fuel with
  | 0 => none
  | fuel + 1 =>
    match mapGet edges start with
    | some value =>
      some { path := [], result := some ⟨value, mapGet db.outMoniker start⟩ }
    | none =>
      let step : PathStep := ⟨start, mapGet db.outMoniker start⟩
      match mapGet db.outNext start with
      | none => some { path := [step], result := none }
      | some nxt =>
        match getResultPath db fuel nxt.id edges with
        | none => none
        | some rp => some { rp with path := step :: rp.path }

/-- The downward index loop of `getMostSpecificMoniker`
(`for i = path.length - 1 downto 0`). -/
def scanPath (path : List PathStep) : Nat → Option MonikerAndKey
  | 0 => none
  | i + 1 =>
    match path.get? i with
    | some entry =>
      match entry.moniker with
      | some m => some m
      | none => scanPath path i
    | none => scanPath path i

/-- Model of `getMostSpecificMoniker`: the result-bearing vertex's own moniker if
any, else the first moniker found scanning the trail tail to head. -/
def getMostSpecificMoniker (result : ResultPath) : Option MonikerAndKey :=
  match result.result with
  | some rf =>
    match rf.moniker with
    | some m => some m
    | none => scanPath result.path result.path.length
  | none => scanPath result.path result.path.length

/-- Model of `containsPosition`: inclusive-boundary containment of a position in
a span. -/
def containsPosition (range : SrcRange) (position : Position) : Bool :=
  if position.line < range.start.line ∨ position.line > range.«end».line then
    false
  else if position.line = range.start.line ∧ position.character < range.start.character then
    false
  else if position.line = range.«end».line ∧ position.character > range.«end».character then
    false
  else
    true

/-- Model of `containsRange`: `otherRange` lies within `range`; equal spans count
as contained. -/
def containsRange (range otherRange : SrcRange) : Bool :=
  if otherRange.start.line < range.start.line ∨ otherRange.«end».line < range.start.line then
    false
  else if otherRange.start.line > range.«end».line ∨ otherRange.«end».line > range.«end».line then
    false
  else if otherRange.start.line = range.start.line ∧ otherRange.start.character < range.start.character then
    false
  else if otherRange.«end».line = range.«end».line ∧ otherRange.«end».character > range.«end».character then
    false
  else
    true

/-- Whether a vertex carries the `range` label
(`item.label === VertexLabels.range`). -/
def isRangeVertex : Vertex → Bool
  | .range _ _ _ => true
  | _ => false

/-- One iteration of the candidate scan of `findRangesFromPosition`:
a non-range item is skipped; the first containing range becomes the
candidate and a later containing range replaces it exactly when it lies
within the current candidate. -/
def docCandidateStep (position : Position) (cand : Option Vertex) (item : Vertex) :
    Option Vertex :=
  match item with
  | .range i s e =>
    if containsPosition ⟨s, e⟩ position then
      match cand with
      | none => some (.range i s e)
      | some c =>
        if containsRange c.span ⟨s, e⟩ then some (.range i s e)
        else cand
    else cand
  | _ => cand

/-- The candidate scan of `findRangesFromPosition` over one document's
`contains` list. -/
def docCandidate (position : Position) : List Vertex → Option Vertex → Option Vertex
  | [], cand => cand
  | item :: rest, cand => docCandidate position rest (docCandidateStep position cand item)

/-- The outer document loop of `findRangesFromPosition`: one
representative range per document instance, aborting the whole query as
soon as any document instance has an absent or empty `contains` list. -/
def findRangesLoop (db : Db) (position : Position) : List Vertex → Option (List Vertex)
  | [] => some []
  | doc :: rest =>
    match mapGet db.outContains doc.id with
    | none => none
    | some contains =>
      if contains.isEmpty then
        none
      else
        let cand := docCandidate position contains none
        match findRangesLoop db position rest with
        | none => none
        | some l =>
          some (match cand with
                | some c => c :: l
                | none => l)

/-- Model of `findRangesFromPosition`: every enclosing range, one per document
instance sharing the URI; `none` when the URI is unknown, any instance
has no ranges, or no instance contains the position. -/
def findRangesFromPosition (db : Db) (file : String) (position : Position) :
    Option (List Vertex) :=
  match smapGet db.idxDocuments file with
  | none => none
  | some value =>
    match findRangesLoop db position value.documents with
    | none => none
    | some result => if result.isEmpty then none else some result

/-- The content-derived identity key of a location
(`Locations.makeKey`): MD5 of the (URI, range coordinates) record,
modelled as the record itself. -/
structure LocKey where
  d : String
  sl : Nat
  sc : Nat
  el : Nat
  ec : Nat
deriving DecidableEq

/-- Build the dedup key of a location. -/
def makeKey (location : TLocation) : LocKey :=
  ⟨location.uri, location.range.start.line, location.range.start.character,
    location.range.«end».line, location.range.«end».character⟩

/-- The `Range | types.Location` argument of `addLocation`. -/
inductive LocValue
  | location (l : TLocation)
  | vertex (v : Vertex)
deriving DecidableEq

/-- Model of `asRange`: copy the four coordinates of a range vertex. -/
def asRange (value : SrcRange) : SrcRange :=
  ⟨⟨value.start.line, value.start.character⟩,
    ⟨value.«end».line, value.«end».character⟩⟩

/-- The location built by `addLocation` from its argument: a location
as is, a range vertex via its owning document from the reverse
`contains` index.  The source dereferences the parent document with a
non-null assertion; a missing or non-document parent would crash and is
modelled as yielding no location. -/
def locValueToLocation (db : Db) (value : LocValue) : Option TLocation :=
  match value with
  | .location l => some l
  | .vertex v =>
    match mapGet db.inContains v.id with
    | some (.document _ uri _) => some ⟨fromDatabase uri, asRange v.span⟩
    | _ => none

/-- Model of `addLocation`: append the location to the result unless its key is
already in the per-query dedup set. -/
def addLocation (db : Db) (result : List TLocation) (value : LocValue)
    (dedup : List LocKey) : List TLocation × List LocKey :=
  match locValueToLocation db value with
  | none => (result, dedup)
  | some location =>
    let key := makeKey location
    if key ∈ dedup then (result, dedup)
    else (result ++ [location], key :: dedup)

/-- The overloaded `item` accessor: the stored `item`-edge targets of a
declaration/definition/reference result vertex. -/
def itemOf (db : Db) (value : Vertex) : Option (List ItemTarget) :=
  match value with
  | .declarationResult i => mapGet db.outItem i
  | .definitionResult i => mapGet db.outItem i
  | .referenceResult i => mapGet db.outItem i
  | _ => none

/-- Model of `findVerticesForMoniker`: the reverse moniker index. -/
def findVerticesForMoniker (db : Db) (moniker : MonikerAndKey) : Option (List Vertex) :=
  mapGet db.inMoniker moniker.id

/-- The accumulated state of one `findTargets` query (`result`,
`dedupLocations`, `dedupMonikers`), with `expanded` a ghost trace that
records, in order, each moniker key whose cross-dump expansion through
the symbol index was actually entered; it does not influence the
computation. -/
structure FTState where
  result : List TLocation
  dedupLocations : List LocKey
  dedupMonikers : List (Option MonikerKey)
  expanded : List (Option MonikerKey)
deriving DecidableEq

/-- The `resolveTargets` closure of `findTargets`: add a location for
every stored item target of the result vertex.  A tagged wrapper in the
list of a definition/declaration result would crash the source's
`addLocation` (no `id`/`uri` fields) and contributes nothing here. -/
def ftResolveTargets (db : Db) (st : FTState) (targetResult : Vertex) : FTState :=
  match itemOf db targetResult with
  | none => st
  | some ranges =>
    ranges.foldl
      (fun s el =>
        match el with
        | .vertex v =>
          let p := addLocation db s.result (.vertex v) s.dedupLocations
          { s with result := p.1, dedupLocations := p.2 }
        | _ => s)
      st

/-- The two nested loops of the `_findTargets` moniker expansion:
repeat the path resolution from every vertex attached to any moniker of
the matching symbol-index bucket. -/
def ftExpandVertices (db : Db) (gfuel : Nat) (edges : List (LsifId × Vertex))
    (st : FTState) (matching : List MonikerAndKey) : FTState :=
  matching.foldl
    (fun s mm =>
      match findVerticesForMoniker db mm with
      | none => s
      | some vertices =>
        vertices.foldl
          (fun s v =>
            match getResultPath db gfuel v.id edges with
            | none => s
            | some rp =>
              match rp.result with
              | none => s
              | some rv => ftResolveTargets db s rv.value)
          s)
    st

/-- The moniker-expansion loop body of `_findTargets`: skip a key
already in the per-query dedup set, otherwise record it and expand the
matching symbol-index bucket. -/
def ftExpandMoniker (db : Db) (gfuel : Nat) (edges : List (LsifId × Vertex))
    (st : FTState) (moniker : MonikerAndKey) : FTState :=
  if moniker.key ∈ st.dedupMonikers then st
  else
    let st := { st with
      dedupMonikers := moniker.key :: st.dedupMonikers,
      expanded := st.expanded ++ [moniker.key] }
    match moniker.key with
    | none => st
    | some k =>
      match kmapGet db.idxMonikers k with
      | none => st
      | some matching => ftExpandVertices db gfuel edges st matching

/-- Model of `_findTargets` for one enclosing range: resolve the result path,
collect its targets, then expand the most specific moniker. -/
def ftRange (db : Db) (gfuel : Nat) (edges : List (LsifId × Vertex))
    (st : FTState) (range : Vertex) : FTState :=
  match getResultPath db gfuel range.id edges with
  | none => st
  | some resultPath =>
    match resultPath.result with
    | none => st
    | some res =>
      let monikers : List MonikerAndKey :=
        match getMostSpecificMoniker resultPath with
        | some m => [m]
        | none => []
      let st := ftResolveTargets db st res.value
      monikers.foldl (ftExpandMoniker db gfuel edges) st

/-- The full state run of `findTargets` (shared by `declarations` and
`definitions`): `none` when position resolution finds nothing. -/
def findTargetsRun (db : Db) (gfuel : Nat) (uri : String) (position : Position)
    (edges : List (LsifId × Vertex)) : Option FTState :=
  match findRangesFromPosition db (toDatabase uri) position with
  | none => none
  | some ranges => some (ranges.foldl (ftRange db gfuel edges) ⟨[], [], [], []⟩)

/-- The declared return type `types.Location | types.Location[] |
undefined` of the public queries, with `undefined` as the surrounding
`Option`. -/
inductive LocationResult
  | single (l : TLocation)
  | list (ls : List TLocation)
deriving DecidableEq

/-- Model of `findTargets`: the public result of a declaration/definition query. -/
def findTargets (db : Db) (gfuel : Nat) (uri : String) (position : Position)
    (edges : List (LsifId × Vertex)) : Option LocationResult :=
  match findTargetsRun db gfuel uri position edges with
  | none => none
  | some st => some (.list st.result)

/-- Model of `declarations`: query the declaration relation map. -/
def declarations (db : Db) (gfuel : Nat) (uri : String) (position : Position) :
    Option LocationResult :=
  findTargets db gfuel uri position db.outDeclaration

/-- Model of `definitions`: query the definition relation map. -/
def definitions (db : Db) (gfuel : Nat) (uri : String) (position : Position) :
    Option LocationResult :=
  findTargets db gfuel uri position db.outDefinition

/-- Model of `types.ReferenceContext`. -/
structure RefContext where
  includeDeclaration : Bool
deriving DecidableEq

/-- The accumulated state of one `references` query.  `monikers` is the
growing per-range worklist array that `resolveReferenceResult` appends
reference-link monikers to; `expanded` is the same ghost trace as in
`FTState`. -/
structure RefState where
  result : List TLocation
  dedupLocations : List LocKey
  monikers : List MonikerAndKey
  dedupMonikers : List (Option MonikerKey)
  expanded : List (Option MonikerKey)
deriving DecidableEq

/-- Add one location to a reference state. -/
def refAddLocation (db : Db) (st : RefState) (v : Vertex) : RefState :=
  let p := addLocation db st.result (.vertex v) st.dedupLocations
  { st with result := p.1, dedupLocations := p.2 }

/-- The target loop of `resolveReferenceResult`: declaration and
definition ranges only under `includeDeclaration`, reference ranges
always, nested reference results recursively, reference links appended
to the moniker worklist, and bare range vertices directly.  Every
recursive call, including the step to the next list element, consumes
fuel. -/
def resolveRefTargets (db : Db) (context : RefContext) :
    Nat → RefState → List ItemTarget → RefState
  | 0, st, _ => st
  | _ + 1, st, [] => st
  | fuel + 1, st, t :: ts =>
    let st :=
      match t with
      | .declarations r =>
        if context.includeDeclaration then refAddLocation db st r else st
      | .definitions r =>
        if context.includeDeclaration then refAddLocation db st r else st
      | .references r => refAddLocation db st r
      | .referenceResults res =>
        match itemOf db res with
        | none => st
        | some targets => resolveRefTargets db context fuel st targets
      | .referenceLinks m => { st with monikers := st.monikers ++ [m] }
      | .vertex v => if isRangeVertex v then refAddLocation db st v else st
    resolveRefTargets db context fuel st ts

/-- Model of `resolveReferenceResult` on a reference-result vertex. -/
def resolveReferenceResult (db : Db) (context : RefContext) (fuel : Nat)
    (st : RefState) (referenceResult : Vertex) : RefState :=
  match itemOf db referenceResult with
  | none => st
  | some targets => resolveRefTargets db context fuel st targets

/-- The two nested loops of the `findReferences` moniker expansion:
repeat the path resolution from every vertex attached to any moniker of
the matching symbol-index bucket, resolving each found reference
result. -/
def refExpandVertices (db : Db) (gfuel : Nat) (context : RefContext)
    (st : RefState) (matching : List MonikerAndKey) : RefState :=
  matching.foldl
    (fun s mm =>
      match findVerticesForMoniker db mm with
      | none => s
      | some vertices =>
        vertices.foldl
          (fun s v =>
            match getResultPath db gfuel v.id db.outReferences with
            | none => s
            | some rp =>
              match rp.result with
              | none => s
              | some rv => resolveReferenceResult db context gfuel s rv.value)
          s)
    st

/-- The `for (const moniker of monikers)` worklist of `findReferences`:
iteration by index over an array that body steps may extend, each key
guarded by the shared `dedupMonikers` set. -/
def refMonikerLoop (db : Db) (gfuel : Nat) (context : RefContext) :
    Nat → RefState → Nat → RefState
  | 0, st, _ => st
  | lfuel + 1, st, i =>
    match st.monikers.get? i with
    | none => st
    | some moniker =>
      if moniker.key ∈ st.dedupMonikers then
        refMonikerLoop db gfuel context lfuel st (i + 1)
      else
        let st := { st with
          dedupMonikers := moniker.key :: st.dedupMonikers,
          expanded := st.expanded ++ [moniker.key] }
        let st :=
          match moniker.key with
          | none => st
          | some k =>
            match kmapGet db.idxMonikers k with
            | none => st
            | some matching => refExpandVertices db gfuel context st matching
        refMonikerLoop db gfuel context lfuel st (i + 1)

/-- Model of `findReferences` for one enclosing range: fresh worklist array, the
initial resolve, then the worklist loop from index 0. -/
def refRange (db : Db) (gfuel : Nat) (context : RefContext)
    (st : RefState) (range : Vertex) : RefState :=
  match getResultPath db gfuel range.id db.outReferences with
  | none => st
  | some resultPath =>
    match resultPath.result with
    | none => st
    | some res =>
      let monikers : List MonikerAndKey :=
        match getMostSpecificMoniker resultPath with
        | some m => [m]
        | none => []
      let st := { st with monikers := monikers }
      let st := resolveReferenceResult db context gfuel st res.value
      refMonikerLoop db gfuel context gfuel st 0

/-- The full state run of `references`. -/
def referencesRun (db : Db) (gfuel : Nat) (uri : String) (position : Position)
    (context : RefContext) : Option RefState :=
  match findRangesFromPosition db (toDatabase uri) position with
  | none => none
  | some ranges => some (ranges.foldl (refRange db gfuel context) ⟨[], [], [], [], []⟩)

/-- Model of `references`: the public reference query. -/
def references (db : Db) (gfuel : Nat) (uri : String) (position : Position)
    (context : RefContext) : Option (List TLocation) :=
  match referencesRun db gfuel uri position context with
  | none => none
  | some st => some st.result

/-- Structural prefix test on character lists (JS `String` helpers are
modelled over `String.data` so concrete runs reduce in the kernel). -/
def isPrefixOfChars : List Char → List Char → Bool
  | [], _ => true
  | _ :: _, [] => false
  | a :: as, b :: bs => a = b && isPrefixOfChars as bs

/-- Structural substring test on character lists. -/
def isInfixOfChars (pat : List Char) : List Char → Bool
  | [] => isPrefixOfChars pat []
  | l@(_ :: rest) => isPrefixOfChars pat l || isInfixOfChars pat rest

/-- JS `String.prototype.endsWith`. -/
def jsEndsWith (s pat : String) : Bool :=
  isPrefixOfChars pat.data.reverse s.data.reverse

/-- JS `String.prototype.includes`. -/
def jsIncludes (s pat : String) : Bool :=
  isInfixOfChars pat.data s.data

/-- The URI attribute of a document vertex (`document.uri`); the
document loops only ever apply it to document vertices. -/
def docUriOf : Vertex → String
  | .document _ uri _ => uri
  | _ => ""

/-- The per-item body of the `allDefinitions` range loop: the contained
range survives only when its resolved most-specific moniker has kind
`export`, its identifier ends in the SCIP trailing dot, and the
identifier avoids the constructor and React-specific markers; a
surviving range contributes the `definitions` locations computed at its
own start position. -/
def allDefsItem (db : Db) (gfuel : Nat) (doc : Vertex) (item : Vertex) :
    List TLocation :=
  match item with
  | .range rid start _ =>
    match getResultPath db gfuel rid db.outDefinition with
    | none => []
    | some resultPath =>
      match getMostSpecificMoniker resultPath with
      | none => []
      | some moniker =>
        if moniker.kind ≠ some .«export» then []
        else
          match moniker.identifier with
          | none => []
          | some idf =>
            if !jsEndsWith idf "." then []
            else if jsIncludes idf "`<constructor>`"
                || jsIncludes idf "#getDerivedStateFromProps()"
                || jsIncludes idf "#propTypes" then []
            else
              match definitions db gfuel (docUriOf doc) start with
              | some (.list ls) => ls
              | some (.single l) => [l]
              | none => []
  | _ => []

/-- The document loop of `allDefinitions`, aborting the whole query on
the first document instance with an absent or empty `contains` list. -/
def allDefsDocLoop (db : Db) (gfuel : Nat) : List Vertex → Option (List TLocation)
  | [] => some []
  | doc :: rest =>
    match mapGet db.outContains doc.id with
    | none => none
    | some contains =>
      if contains.isEmpty then
        none
      else
        let here := contains.foldl (fun acc item => acc ++ allDefsItem db gfuel doc item) []
        match allDefsDocLoop db gfuel rest with
        | none => none
        | some more => some (here ++ more)

/-- Model of `allDefinitions`: the exported-definition sites of a document, kept
only when their location maps back to the queried document itself. -/
def allDefinitions (db : Db) (gfuel : Nat) (uri : String) : Option (List TLocation) :=
  let url := toDatabase uri
  match smapGet db.idxDocuments url with
  | none => none
  | some value =>
    match allDefsDocLoop db gfuel value.documents with
    | none => none
    | some results =>
      if results.length > 0 then some (results.filter (fun l => l.uri = url))
      else none

/-- The `next`-edge successor chain: `nextIter db k start` is the vertex
id reached from `start` after `k` hops, `none` once the chain ends. -/
def nextIter (db : Db) : Nat → LsifId → Option LsifId
  | 0, i => some i
  | n + 1, i =>
    match mapGet db.outNext i with
    | none => none
    | some v => nextIter db n v.id

/-- The chain of `next` edges starting at `start` is acyclic: no vertex
id is reached at two different hop counts. -/
def chainAcyclic (db : Db) (start : LsifId) : Prop :=
  ∀ m n a, nextIter db m start = some a → nextIter db n start = some a → m = n

/-- No two locations of the list share both URI and range. -/
def locationsDistinct (ls : List TLocation) : Prop :=
  ls.Pairwise (fun a b => ¬(a.uri = b.uri ∧ a.range = b.range))

/-- Invariant tying a result list to its location dedup set: every
result's key is recorded and no two results share a key. -/
def KeysOk (result : List TLocation) (dedup : List LocKey) : Prop :=
  (∀ l ∈ result, makeKey l ∈ dedup) ∧
    result.Pairwise (fun a b => makeKey a ≠ makeKey b)

/-- Invariant of the ghost expansion trace: no key is expanded twice
and every expanded key is recorded in the moniker dedup set. -/
def ExpOk (expanded dedup : List (Option MonikerKey)) : Prop :=
  expanded.Nodup ∧ ∀ k ∈ expanded, k ∈ dedup

/-- A dump exercising `allDefinitions`: one document with two exported
ranges whose definition results both point at the same target range. -/
def c2recs : List ElementR := [
  .vertex (.document 1 "file:///a.ts" (some "x")),
  .vertex (.range 2 ⟨0, 0⟩ ⟨0, 5⟩),
  .vertex (.range 3 ⟨1, 0⟩ ⟨1, 5⟩),
  .vertex (.range 4 ⟨5, 0⟩ ⟨5, 5⟩),
  .vertex (.moniker 5 "scip" "foo." .«export» none),
  .vertex (.moniker 6 "scip" "bar." .«export» none),
  .vertex (.definitionResult 7),
  .edge (.e1N .contains 1 [2, 3, 4] none),
  .edge (.e11 .moniker 2 5 none),
  .edge (.e11 .moniker 3 6 none),
  .edge (.e11 .textDocument_definition 2 7 none),
  .edge (.e11 .textDocument_definition 3 7 none),
  .edge (.e11 .item 7 4 none)]

/-- The store loaded from `c2recs`. -/
def c2db : Db := (loadElements initialDb c2recs).toOption.getD initialDb

/-- The single definition location of the `c2recs` dump. -/
def c2loc : TLocation := ⟨"file:///a.ts", ⟨⟨5, 0⟩, ⟨5, 5⟩⟩⟩

/-- The `findTargets` state of a definitions query on `c2db`. -/
def c7ftState : FTState :=
  (findTargetsRun c2db 100 "file:///a.ts" ⟨0, 0⟩ c2db.outDefinition).getD ⟨[], [], [], []⟩

/-- The `references` state of a reference query on `c2db`. -/
def c7refState : RefState :=
  (referencesRun c2db 100 "file:///a.ts" ⟨0, 0⟩ ⟨true⟩).getD ⟨[], [], [], [], []⟩

/-- A dump containing a `textDocument_declaration` edge between two
well-registered vertices. -/
def c1recs : List ElementR := [
  .vertex (.range 1 ⟨0, 0⟩ ⟨0, 1⟩),
  .vertex (.resultSet 2),
  .edge (.e11 .textDocument_declaration 1 2 none)]

/-- The store loaded from `c1recs`. -/
def c1db : Db := (loadElements initialDb c1recs).toOption.getD initialDb

/-- A dump containing an `attach` edge, a protocol label outside the
switch of `doProcessEdge`. -/
def c3recs : List ElementR := [
  .vertex (.range 1 ⟨0, 0⟩ ⟨0, 1⟩),
  .vertex (.resultSet 2),
  .edge (.e11 .attach 1 2 none)]

/-- The store loaded from `c3recs`. -/
def c3db : Db := (loadElements initialDb c3recs).toOption.getD initialDb

/-- A document with three overlapping ranges: `R1 = 11` spans
`(0,0)-(0,10)`, `R3 = 12` spans `(0,0)-(0,6)` inside `R1`, and
`R2 = 13` spans `(0,4)-(0,10)` inside `R1` but incomparable with `R3`. -/
def c4recs : List ElementR := [
  .vertex (.document 10 "file:///b.ts" none),
  .vertex (.range 11 ⟨0, 0⟩ ⟨0, 10⟩),
  .vertex (.range 12 ⟨0, 0⟩ ⟨0, 6⟩),
  .vertex (.range 13 ⟨0, 4⟩ ⟨0, 10⟩),
  .edge (.e1N .contains 10 [11, 12, 13] none)]

/-- The store loaded from `c4recs`. -/
def c4db : Db := (loadElements initialDb c4recs).toOption.getD initialDb

/-- Two document instances of one URI, the second with no `contains`
edge at all, the first with a range containing position `(0,1)`. -/
def c9recs : List ElementR := [
  .vertex (.document 20 "file:///c.ts" none),
  .vertex (.document 21 "file:///c.ts" none),
  .vertex (.range 22 ⟨0, 0⟩ ⟨0, 5⟩),
  .edge (.e11 .contains 20 22 none)]

/-- The store loaded from `c9recs`. -/
def c9db : Db := (loadElements initialDb c9recs).toOption.getD initialDb

/-- Two document instances of one URI, both with ranges; only the
second one's range contains position `(0,1)`. -/
def c9brecs : List ElementR := [
  .vertex (.document 30 "file:///d.ts" none),
  .vertex (.document 31 "file:///d.ts" none),
  .vertex (.range 32 ⟨5, 0⟩ ⟨5, 5⟩),
  .vertex (.range 33 ⟨0, 0⟩ ⟨0, 3⟩),
  .edge (.e11 .contains 30 32 none),
  .edge (.e11 .contains 31 33 none)]

/-- The store loaded from `c9brecs`. -/
def c9bdb : Db := (loadElements initialDb c9brecs).toOption.getD initialDb

/-- A store whose single vertex has a `next` edge to itself and no
entry in any relation map. -/
def c8recs : List ElementR := [
  .vertex (.resultSet 1),
  .edge (.e11 .next 1 1 none)]

/-- The store loaded from `c8recs`. -/
def c8cycDb : Db := (loadElements initialDb c8recs).toOption.getD initialDb

/-- A concrete moniker for the `getMostSpecificMoniker` witness. -/
def c6mk : MonikerAndKey := ⟨5, some "s", some "i.", some .«export», some ("s", "i.")⟩

/-- A resolved path whose terminal carries no moniker and whose trail
has its only moniker on the entry closest to the terminal. -/
def c6rp : ResultPath := ⟨[⟨1, none⟩, ⟨2, some c6mk⟩], some ⟨.resultSet 9, none⟩⟩

theorem mapGet_set_self {β : Type} (m : List (LsifId × β)) (k : LsifId) (v : β) :
    mapGet (mapSet m k v) k = some v := by
  simp [mapGet, mapSet]

theorem foldl_preserve {σ α : Type} (P : σ → Prop) (f : σ → α → σ)
    (h : ∀ s a, P s → P (f s a)) :
    ∀ (l : List α) (s : σ), P s → P (l.foldl f s) := by
  intro l
  induction l with
  | nil => intro s hs; exact hs
  | cons a as ih => intro s hs; exact ih (f s a) (h s a hs)

/-- Claim C10: each of `declarations`, `definitions` and `references`
returns either the absent result or a list of locations; despite the
declared return type admitting it, a single bare location value is never
returned. -/
theorem C10_queries_never_return_bare_location (db : Db) (gfuel : Nat)
    (uri : String) (position : Position) (context : RefContext) :
    (declarations db gfuel uri position = none ∨
      ∃ ls, declarations db gfuel uri position = some (.list ls))
    ∧ (definitions db gfuel uri position = none ∨
      ∃ ls, definitions db gfuel uri position = some (.list ls))
    ∧ (references db gfuel uri position context = none ∨
      ∃ ls, references db gfuel uri position context = some ls) := by
  refine ⟨?_, ?_, ?_⟩
  · rcases h : findTargetsRun db gfuel uri position db.outDeclaration with _ | st
    · exact Or.inl (by simp [declarations, findTargets, h])
    · exact Or.inr ⟨st.result, by simp [declarations, findTargets, h]⟩
  · rcases h : findTargetsRun db gfuel uri position db.outDefinition with _ | st
    · exact Or.inl (by simp [definitions, findTargets, h])
    · exact Or.inr ⟨st.result, by simp [definitions, findTargets, h]⟩
  · rcases h : referencesRun db gfuel uri position context with _ | st
    · exact Or.inl (by simp [references, h])
    · exact Or.inr ⟨st.result, by simp [references, h]⟩

/-- Claim C1 counterexample: ingesting a `textDocument_declaration`
edge between two registered vertices succeeds but stores nothing in the
declaration forward map, so a declarations query can never find it. -/
theorem C1_declaration_edge_not_stored :
    loadElements initialDb c1recs = .ok c1db ∧ c1db.outDeclaration = [] := by
  exact ⟨rfl, rfl⟩

/-- Claim C1, amended: of the relation-specific labels only definition,
reference, type-definition, document-symbol, folding-range,
document-link and diagnostic edges store their target into their own
forward map keyed by the source id; declaration and implementation
edges are silently ignored and leave the store unchanged. -/
theorem C1_relation_edges_store_target (db : Db) (outV inV : LsifId)
    (vf vt : Vertex) (hf : mapGet db.verticesAll outV = some vf)
    (ht : mapGet db.verticesAll inV = some vt) :
    (∃ db', doProcessEdge db .textDocument_definition outV inV none = .ok db' ∧
      mapGet db'.outDefinition vf.id = some vt)
    ∧ (∃ db', doProcessEdge db .textDocument_references outV inV none = .ok db' ∧
      mapGet db'.outReferences vf.id = some vt)
    ∧ (∃ db', doProcessEdge db .textDocument_typeDefinition outV inV none = .ok db' ∧
      mapGet db'.outTypeDefinition vf.id = some vt)
    ∧ (∃ db', doProcessEdge db .textDocument_documentSymbol outV inV none = .ok db' ∧
      mapGet db'.outDocumentSymbol vf.id = some vt)
    ∧ (∃ db', doProcessEdge db .textDocument_foldingRange outV inV none = .ok db' ∧
      mapGet db'.outFoldingRange vf.id = some vt)
    ∧ (∃ db', doProcessEdge db .textDocument_documentLink outV inV none = .ok db' ∧
      mapGet db'.outDocumentLink vf.id = some vt)
    ∧ (∃ db', doProcessEdge db .textDocument_diagnostic outV inV none = .ok db' ∧
      mapGet db'.outDiagnostic vf.id = some vt)
    ∧ doProcessEdge db .textDocument_declaration outV inV none = .ok db
    ∧ doProcessEdge db .textDocument_implementation outV inV none = .ok db := by
  refine ⟨⟨{ db with outDefinition := mapSet db.outDefinition vf.id vt }, ?_,
      mapGet_set_self _ _ _⟩,
    ⟨{ db with outReferences := mapSet db.outReferences vf.id vt }, ?_,
      mapGet_set_self _ _ _⟩,
    ⟨{ db with outTypeDefinition := mapSet db.outTypeDefinition vf.id vt }, ?_,
      mapGet_set_self _ _ _⟩,
    ⟨{ db with outDocumentSymbol := mapSet db.outDocumentSymbol vf.id vt }, ?_,
      mapGet_set_self _ _ _⟩,
    ⟨{ db with outFoldingRange := mapSet db.outFoldingRange vf.id vt }, ?_,
      mapGet_set_self _ _ _⟩,
    ⟨{ db with outDocumentLink := mapSet db.outDocumentLink vf.id vt }, ?_,
      mapGet_set_self _ _ _⟩,
    ⟨{ db with outDiagnostic := mapSet db.outDiagnostic vf.id vt }, ?_,
      mapGet_set_self _ _ _⟩,
    ?_, ?_⟩ <;> simp [doProcessEdge, hf, ht]

/-- Witness for the amended claim C1 at the concrete store `c1db`. -/
theorem C1_relation_edges_store_target_witness :
    (∃ db', doProcessEdge c1db .textDocument_definition 1 2 none = .ok db' ∧
      mapGet db'.outDefinition 1 = some (.resultSet 2))
    ∧ doProcessEdge c1db .textDocument_declaration 1 2 none = .ok c1db := by
  have h := C1_relation_edges_store_target c1db 1 2 (.range 1 ⟨0, 0⟩ ⟨0, 1⟩)
    (.resultSet 2) (by decide) (by decide)
  exact ⟨h.1, h.2.2.2.2.2.2.2.1⟩

/-- Claim C3 counterexample: an edge record with the protocol label
`attach`, which has no case in the edge switch, is silently ignored and
the load succeeds with the store unchanged by that edge. -/
theorem C3_unknown_edge_label_does_not_abort :
    loadElements initialDb c3recs = .ok c3db
    ∧ c3db = (loadElements initialDb
        [.vertex (.range 1 ⟨0, 0⟩ ⟨0, 1⟩), .vertex (.resultSet 2)]).toOption.getD initialDb := by
  exact ⟨rfl, rfl⟩

/-- Claim C3, amended: a vertex record with a label outside the
recognised set aborts the load with a malformed-input error, but an
edge record with an unhandled label whose endpoints exist is silently
ignored (the store is returned unchanged). -/
theorem C3_unknown_label_handling (db : Db) (i : LsifId) (lbl : String)
    (outV inV : LsifId) (vf vt : Vertex)
    (hf : mapGet db.verticesAll outV = some vf)
    (ht : mapGet db.verticesAll inV = some vt) :
    processVertex db (.unknownVertex i lbl) =
      .error ("Unexpected vertex label: " ++ lbl)
    ∧ processVertex db (.declarationResult i) =
      .error "Unexpected vertex label: declarationResult"
    ∧ doProcessEdge db .attach outV inV none = .ok db
    ∧ doProcessEdge db .packageInformation outV inV none = .ok db := by
  refine ⟨?_, ?_, ?_, ?_⟩ <;> simp [processVertex, Vertex.labelName, doProcessEdge, hf, ht]

/-- Witness for the amended claim C3 at concrete inputs. -/
theorem C3_unknown_label_handling_witness :
    processVertex initialDb (.unknownVertex 1 "event") =
      .error "Unexpected vertex label: event"
    ∧ doProcessEdge c3db .attach 1 2 none = .ok c3db := by
  have h := C3_unknown_label_handling c3db 1 "event" 1 2
    (.range 1 ⟨0, 0⟩ ⟨0, 1⟩) (.resultSet 2) (by decide) (by decide)
  exact ⟨by simp [processVertex, Vertex.labelName], h.2.2.1⟩

theorem scanPath_eq_findSome (path : List PathStep) :
    ∀ n, scanPath path n = ((path.take n).reverse).findSome? PathStep.moniker := by
  intro n
  induction n with
  | zero => simp [scanPath]
  | succ i ih =>
    rcases h : path.get? i with _ | e
    · have hg : path[i]? = none := by rw [← List.get?_eq_getElem?]; exact h
      simp only [scanPath, h]
      rw [List.take_succ, hg]
      simpa using ih
    · have hg : path[i]? = some e := by rw [← List.get?_eq_getElem?]; exact h
      simp only [scanPath, h]
      rw [List.take_succ, hg]
      rcases hm : e.moniker with _ | m <;>
        simp [List.reverse_append, List.findSome?_cons, hm, ih]

/-- Claim C6: on a resolved result path, if the result-bearing vertex
carries a moniker the selection returns it; otherwise it returns the
first moniker found scanning the recorded trail from its tail (closest
to the terminal) back to its head, and nothing when no trail entry
carries a moniker. -/
theorem C6_most_specific_moniker_selection (rp : ResultPath) :
    (∀ rf m, rp.result = some rf → rf.moniker = some m →
      getMostSpecificMoniker rp = some m)
    ∧ ((∀ rf, rp.result = some rf → rf.moniker = none) →
      getMostSpecificMoniker rp = rp.path.reverse.findSome? PathStep.moniker)
    ∧ ((∀ rf, rp.result = some rf → rf.moniker = none) →
      (∀ e ∈ rp.path, e.moniker = none) →
      getMostSpecificMoniker rp = none) := by
  have hscan := scanPath_eq_findSome rp.path rp.path.length
  rw [List.take_length] at hscan
  have part2 : (∀ rf, rp.result = some rf → rf.moniker = none) →
      getMostSpecificMoniker rp = rp.path.reverse.findSome? PathStep.moniker := by
    intro hnone
    rcases h : rp.result with _ | rf
    · simpa [getMostSpecificMoniker, h] using hscan
    · have hm := hnone rf h
      simpa [getMostSpecificMoniker, h, hm] using hscan
  refine ⟨?_, part2, ?_⟩
  · intro rf m hr hm
    simp [getMostSpecificMoniker, hr, hm]
  · intro hnone hpath
    rw [part2 hnone]
    rw [List.findSome?_eq_none_iff]
    intro x hx
    exact hpath x (List.mem_reverse.mp hx)

/-- Witness for claim C6 at a concrete resolved path whose only trail
moniker sits on the entry closest to the terminal. -/
theorem C6_most_specific_moniker_selection_witness :
    getMostSpecificMoniker c6rp = c6rp.path.reverse.findSome? PathStep.moniker
    ∧ getMostSpecificMoniker c6rp = some c6mk := by
  constructor
  · refine (C6_most_specific_moniker_selection c6rp).2.1 ?_
    intro rf h
    have h' : some (⟨Vertex.resultSet 9, none⟩ : ResultFound) = some rf := h
    rw [← Option.some.inj h']
  · decide

/-- Claim C9: for a URI with several loaded document instances, any
instance with an absent or empty `contains` list makes position
resolution return the absent result for the whole document set, even if
another instance contains the position; an instance whose ranges merely
fail to contain the position contributes nothing but does not abort the
others. -/
theorem C9_empty_instance_aborts_position_resolution (db : Db) (position : Position) :
    (∀ (file : String) (entry : DocumentsEntry),
      smapGet db.idxDocuments file = some entry →
      (∃ doc ∈ entry.documents, mapGet db.outContains doc.id = none ∨
        mapGet db.outContains doc.id = some []) →
      findRangesFromPosition db file position = none)
    ∧ (∀ (doc : Vertex) (rest : List Vertex) (cs : List Vertex),
        mapGet db.outContains doc.id = some cs → cs ≠ [] →
        docCandidate position cs none = none →
        findRangesLoop db position (doc :: rest) = findRangesLoop db position rest) := by
  constructor
  · intro file entry hidx hbad
    have hloop : ∀ docs : List Vertex,
        (∃ doc ∈ docs, mapGet db.outContains doc.id = none ∨
          mapGet db.outContains doc.id = some []) →
        findRangesLoop db position docs = none := by
      intro docs
      induction docs with
      | nil => rintro ⟨d, hd, _⟩; cases hd
      | cons d ds ih =>
        rintro ⟨x, hx, hbad2⟩
        rcases List.mem_cons.mp hx with rfl | hx'
        · rcases hbad2 with h | h
          · simp [findRangesLoop, h]
          · simp [findRangesLoop, h]
        · rcases h : mapGet db.outContains d.id with _ | cs
          · simp [findRangesLoop, h]
          · by_cases he : cs.isEmpty = true
            · simp [findRangesLoop, h, he]
            · have hds := ih ⟨x, hx', hbad2⟩
              simp [findRangesLoop, h, he, hds]
    simp [findRangesFromPosition, hidx, hloop entry.documents hbad]
  · intro doc rest cs h hne hcand
    have he : cs.isEmpty = false := by
      rw [List.isEmpty_eq_false]; exact hne
    rcases hr : findRangesLoop db position rest with _ | l <;>
      simp [findRangesLoop, h, he, hcand, hr]

/-- Witness for claim C9 at the concrete stores `c9db` (an instance
with no `contains` list aborts) and `c9bdb` (an instance that merely
fails to contain the position is skipped). -/
theorem C9_empty_instance_aborts_witness :
    findRangesFromPosition c9db "file:///c.ts" ⟨0, 1⟩ = none
    ∧ findRangesLoop c9bdb ⟨0, 1⟩
        [.document 30 "file:///d.ts" none, .document 31 "file:///d.ts" none]
      = findRangesLoop c9bdb ⟨0, 1⟩ [.document 31 "file:///d.ts" none] := by
  constructor
  · exact (C9_empty_instance_aborts_position_resolution c9db ⟨0, 1⟩).1 "file:///c.ts"
      ⟨"No content provided.",
        [.document 20 "file:///c.ts" none, .document 21 "file:///c.ts" none]⟩
      (by decide)
      ⟨.document 21 "file:///c.ts" none, by decide, Or.inl (by decide)⟩
  · exact (C9_empty_instance_aborts_position_resolution c9bdb ⟨0, 1⟩).2
      (.document 30 "file:///d.ts" none) [.document 31 "file:///d.ts" none]
      [.range 32 ⟨5, 0⟩ ⟨5, 5⟩] (by decide) (by decide) (by decide)

theorem containsRange_iff (a b : SrcRange) :
    containsRange a b = true ↔
      (a.start.line ≤ b.start.line ∧ a.start.line ≤ b.«end».line ∧
        b.start.line ≤ a.«end».line ∧ b.«end».line ≤ a.«end».line ∧
        (b.start.line = a.start.line → a.start.character ≤ b.start.character) ∧
        (b.«end».line = a.«end».line → b.«end».character ≤ a.«end».character)) := by
  unfold containsRange
  split_ifs with h1 h2 h3 h4 <;> simp <;> omega

theorem containsPosition_iff (r : SrcRange) (p : Position) :
    containsPosition r p = true ↔
      (r.start.line ≤ p.line ∧ p.line ≤ r.«end».line ∧
        (p.line = r.start.line → r.start.character ≤ p.character) ∧
        (p.line = r.«end».line → p.character ≤ r.«end».character)) := by
  unfold containsPosition
  split_ifs with h1 h2 h3 <;> simp <;> omega

theorem containsRange_trans {a b c : SrcRange}
    (hab : containsRange a b = true) (hbc : containsRange b c = true) :
    containsRange a c = true := by
  rw [containsRange_iff] at *
  omega

theorem containsRange_refl_of_containsPosition {r : SrcRange} {p : Position}
    (h : containsPosition r p = true) : containsRange r r = true := by
  rw [containsPosition_iff] at h
  rw [containsRange_iff]
  omega

theorem docCandidate_c4_key (pos : Position) (r2 : SrcRange)
    (hr2 : containsPosition r2 pos = true) :
    ∀ (items : List Vertex) (cand : Option Vertex) (C : Vertex),
      (∀ c, cand = some c → containsPosition c.span pos = true) →
      ((∃ i, Vertex.range i r2.start r2.«end» ∈ items) ∨
        (∃ c, cand = some c ∧
          (containsRange c.span r2 = true → containsRange r2 c.span = true))) →
      docCandidate pos items cand = some C →
      containsRange C.span r2 = true → containsRange r2 C.span = true := by
  intro items
  induction items with
  | nil =>
    intro cand C hpos hdisj hrun hCr2
    rcases hdisj with ⟨i, hmem⟩ | ⟨c, hc, hIc⟩
    · cases hmem
    · have hCc : some c = some C := by rw [← hc]; exact hrun
      rw [Option.some.inj hCc] at hIc
      exact hIc hCr2
  | cons item rest ih =>
    intro cand C hpos hdisj hrun hCr2
    rw [docCandidate] at hrun
    -- dispatch on what the scan step did with this item
    have hmem_or : (∃ i, Vertex.range i r2.start r2.«end» ∈ rest) ∨
        (∃ j, item = Vertex.range j r2.start r2.«end») ∨
        ((∃ c, cand = some c ∧
          (containsRange c.span r2 = true → containsRange r2 c.span = true)) ∧
          ¬ ∃ i, Vertex.range i r2.start r2.«end» ∈ item :: rest) := by
      rcases hdisj with ⟨j, hmem⟩ | hinv
      · rcases List.mem_cons.mp hmem with heq | hmem'
        · exact Or.inr (Or.inl ⟨j, heq.symm⟩)
        · exact Or.inl ⟨j, hmem'⟩
      · by_cases hany : ∃ i, Vertex.range i r2.start r2.«end» ∈ item :: rest
        · rcases hany with ⟨j, hmem⟩
          rcases List.mem_cons.mp hmem with heq | hmem'
          · exact Or.inr (Or.inl ⟨j, heq.symm⟩)
          · exact Or.inl ⟨j, hmem'⟩
        · exact Or.inr (Or.inr ⟨hinv, hany⟩)
    -- the step keeps the candidate position-containing
    have hstep_pos : ∀ c', docCandidateStep pos cand item = some c' →
        containsPosition c'.span pos = true := by
      intro c' hc'
      cases item
      case range i s e =>
        by_cases hcp : containsPosition ⟨s, e⟩ pos = true
        · cases cand with
          | none =>
            simp only [docCandidateStep, if_pos hcp] at hc'
            rw [← Option.some.inj hc']
            exact hcp
          | some c =>
            simp only [docCandidateStep, if_pos hcp] at hc'
            by_cases hshr : containsRange c.span ⟨s, e⟩ = true
            · rw [if_pos hshr] at hc'
              rw [← Option.some.inj hc']
              exact hcp
            · rw [if_neg hshr] at hc'
              exact hpos c' hc'
        · simp only [docCandidateStep, if_neg hcp] at hc'
          exact hpos c' hc'
      all_goals
        simp only [docCandidateStep] at hc'
        exact hpos c' hc'
    -- an occurrence of R2 at the head establishes the invariant
    have hhead : (∃ j, item = Vertex.range j r2.start r2.«end») →
        (∃ c', docCandidateStep pos cand item = some c' ∧
          (containsRange c'.span r2 = true → containsRange r2 c'.span = true)) := by
      rintro ⟨j, rfl⟩
      have hcp : containsPosition ⟨r2.start, r2.«end»⟩ pos = true := by
        cases r2; exact hr2
      have hrefl : containsRange r2 r2 = true :=
        containsRange_refl_of_containsPosition hr2
      have hspanr2 : (Vertex.range j r2.start r2.«end»).span = r2 := by
        cases r2; simp [Vertex.span]
      cases cand with
      | none =>
        refine ⟨.range j r2.start r2.«end», ?_, ?_⟩
        · simp only [docCandidateStep, if_pos hcp]
        · rw [hspanr2]; exact fun _ => hrefl
      | some c =>
        by_cases hshr : containsRange c.span ⟨r2.start, r2.«end»⟩ = true
        · refine ⟨.range j r2.start r2.«end», ?_, ?_⟩
          · simp only [docCandidateStep, if_pos hcp, if_pos hshr]
          · rw [hspanr2]; exact fun _ => hrefl
        · refine ⟨c, ?_, ?_⟩
          · simp only [docCandidateStep, if_pos hcp, if_neg hshr]
          · intro habs
            have hc2 : containsRange c.span r2 = true := by
              have : (⟨r2.start, r2.«end»⟩ : SrcRange) = r2 := by cases r2; rfl
              rw [← this]; exact habs
            have : containsRange c.span (⟨r2.start, r2.«end»⟩ : SrcRange) = true := by
              have h2 : (⟨r2.start, r2.«end»⟩ : SrcRange) = r2 := by cases r2; rfl
              rw [h2]; exact hc2
            exact absurd this hshr
    -- the step preserves an already-established invariant
    have hkeep : ((∃ c, cand = some c ∧
          (containsRange c.span r2 = true → containsRange r2 c.span = true)) ∧
          ¬ ∃ i, Vertex.range i r2.start r2.«end» ∈ item :: rest) →
        (∃ c', docCandidateStep pos cand item = some c' ∧
          (containsRange c'.span r2 = true → containsRange r2 c'.span = true)) := by
      rintro ⟨⟨c, rfl, hIc⟩, hnomem⟩
      cases item
      case range i s e =>
        by_cases hcp : containsPosition ⟨s, e⟩ pos = true
        · by_cases hshr : containsRange c.span ⟨s, e⟩ = true
          · refine ⟨.range i s e, ?_, ?_⟩
            · simp only [docCandidateStep, if_pos hcp, if_pos hshr]
            · intro hnew
              have hspan : (Vertex.range i s e).span = (⟨s, e⟩ : SrcRange) := by
                simp [Vertex.span]
              rw [hspan] at hnew ⊢
              have hcr2 : containsRange c.span r2 = true :=
                containsRange_trans hshr hnew
              exact containsRange_trans (hIc hcr2) hshr
          · refine ⟨c, ?_, hIc⟩
            simp only [docCandidateStep, if_pos hcp, if_neg hshr]
        · refine ⟨c, ?_, hIc⟩
          simp only [docCandidateStep, if_neg hcp]
      all_goals
        exact ⟨c, by simp only [docCandidateStep], hIc⟩
    rcases hmem_or with hrest | hh | hinvkept
    · exact ih _ C hstep_pos (Or.inl hrest) hrun hCr2
    · exact ih _ C hstep_pos (Or.inr (hhead hh)) hrun hCr2
    · exact ih _ C hstep_pos (Or.inr (hkeep hinvkept)) hrun hCr2

/-- Claim C4 counterexample: in `c4db`, R1 = `(0,0)-(0,10)` and
R2 = `(0,4)-(0,10)` both contain position `(0,5)` and R2's span lies
entirely within R1's span, yet position resolution selects the third
range `(0,0)-(0,6)` — not R2 — because the greedy scan had already
shrunk the candidate to a range R2 does not fit inside. -/
theorem C4_counterexample :
    containsPosition ⟨⟨0, 0⟩, ⟨0, 10⟩⟩ ⟨0, 5⟩ = true
    ∧ containsPosition ⟨⟨0, 4⟩, ⟨0, 10⟩⟩ ⟨0, 5⟩ = true
    ∧ containsRange ⟨⟨0, 0⟩, ⟨0, 10⟩⟩ ⟨⟨0, 4⟩, ⟨0, 10⟩⟩ = true
    ∧ containsRange ⟨⟨0, 4⟩, ⟨0, 10⟩⟩ ⟨⟨0, 0⟩, ⟨0, 10⟩⟩ = false
    ∧ findRangesFromPosition c4db "file:///b.ts" ⟨0, 5⟩ =
        some [.range 12 ⟨0, 0⟩ ⟨0, 6⟩] := by
  refine ⟨by decide, by decide, by decide, by decide, by decide⟩

/-- Claim C4, amended: the selected candidate never strictly contains
another range of the `contains` list that also contains the position
(so the enclosing R1 is never selected when a strictly nested R2 is
present, with equal spans interchangeable); and when R1 and R2 are the
only scanned ranges, R2 is selected in either order.  With further
containing ranges present the selection may be a third range. -/
theorem C4_narrowest_range_selection (pos : Position) :
    (∀ (items : List Vertex) (C : Vertex) (i2 : LsifId) (r2 : SrcRange),
      Vertex.range i2 r2.start r2.«end» ∈ items →
      containsPosition r2 pos = true →
      docCandidate pos items none = some C →
      containsRange C.span r2 = true → containsRange r2 C.span = true)
    ∧ (∀ (i1 i2 : LsifId) (s1 e1 s2 e2 : Position),
        containsPosition ⟨s1, e1⟩ pos = true → containsPosition ⟨s2, e2⟩ pos = true →
        containsRange ⟨s1, e1⟩ ⟨s2, e2⟩ = true → containsRange ⟨s2, e2⟩ ⟨s1, e1⟩ = false →
        docCandidate pos [.range i1 s1 e1, .range i2 s2 e2] none
          = some (.range i2 s2 e2)
        ∧ docCandidate pos [.range i2 s2 e2, .range i1 s1 e1] none
          = some (.range i2 s2 e2)) := by
  constructor
  · intro items C i2 r2 hmem hcp hrun hCr2
    exact docCandidate_c4_key pos r2 hcp items none C
      (fun c hc => by cases hc) (Or.inl ⟨i2, hmem⟩) hrun hCr2
  · intro i1 i2 s1 e1 s2 e2 h1 h2 h3 h4
    constructor
    · simp [docCandidate, docCandidateStep, h1, h2, h3, Vertex.span]
    · simp [docCandidate, docCandidateStep, h1, h2, h4, Vertex.span]

/-- Witness for the amended claim C4 at the concrete overlapping ranges
of `c4recs`. -/
theorem C4_narrowest_range_selection_witness :
    docCandidate ⟨0, 5⟩ [.range 11 ⟨0, 0⟩ ⟨0, 10⟩, .range 13 ⟨0, 4⟩ ⟨0, 10⟩] none
      = some (.range 13 ⟨0, 4⟩ ⟨0, 10⟩)
    ∧ docCandidate ⟨0, 5⟩ [.range 13 ⟨0, 4⟩ ⟨0, 10⟩, .range 11 ⟨0, 0⟩ ⟨0, 10⟩] none
      = some (.range 13 ⟨0, 4⟩ ⟨0, 10⟩)
    ∧ containsRange (⟨⟨0, 4⟩, ⟨0, 10⟩⟩ : SrcRange)
        (Vertex.range 13 ⟨0, 4⟩ ⟨0, 10⟩).span = true := by
  have h := (C4_narrowest_range_selection ⟨0, 5⟩).2 11 13 ⟨0, 0⟩ ⟨0, 10⟩ ⟨0, 4⟩ ⟨0, 10⟩
    (by decide) (by decide) (by decide) (by decide)
  have ha := (C4_narrowest_range_selection ⟨0, 5⟩).1
    [.range 11 ⟨0, 0⟩ ⟨0, 10⟩, .range 13 ⟨0, 4⟩ ⟨0, 10⟩]
    (.range 13 ⟨0, 4⟩ ⟨0, 10⟩) 13 ⟨⟨0, 4⟩, ⟨0, 10⟩⟩
    (by decide) (by decide) h.1 (by decide)
  exact ⟨h.1, h.2, ha⟩

/-- Claim C5: every location returned by `allDefinitions` carries the
normalised queried URI itself, and a contained range contributes no
location when it is not a range vertex, when its definition path yields
no moniker, when the most specific moniker is not of kind `export`,
when its identifier lacks the trailing separator, or when the
identifier contains the constructor or React-specific markers. -/
theorem C5_all_definitions_filters (db : Db) (gfuel : Nat) :
    (∀ (uri : String) (ls : List TLocation), allDefinitions db gfuel uri = some ls →
      ∀ l ∈ ls, l.uri = toDatabase uri)
    ∧ (∀ doc item, isRangeVertex item = false → allDefsItem db gfuel doc item = [])
    ∧ (∀ doc rid s e rp, getResultPath db gfuel rid db.outDefinition = some rp →
        getMostSpecificMoniker rp = none →
        allDefsItem db gfuel doc (.range rid s e) = [])
    ∧ (∀ doc rid s e rp m, getResultPath db gfuel rid db.outDefinition = some rp →
        getMostSpecificMoniker rp = some m → m.kind ≠ some .«export» →
        allDefsItem db gfuel doc (.range rid s e) = [])
    ∧ (∀ doc rid s e rp m idf, getResultPath db gfuel rid db.outDefinition = some rp →
        getMostSpecificMoniker rp = some m → m.identifier = some idf →
        jsEndsWith idf "." = false →
        allDefsItem db gfuel doc (.range rid s e) = [])
    ∧ (∀ doc rid s e rp m idf, getResultPath db gfuel rid db.outDefinition = some rp →
        getMostSpecificMoniker rp = some m → m.identifier = some idf →
        (jsIncludes idf "`<constructor>`" = true ∨
          jsIncludes idf "#getDerivedStateFromProps()" = true ∨
          jsIncludes idf "#propTypes" = true) →
        allDefsItem db gfuel doc (.range rid s e) = []) := by
  refine ⟨?_, ?_, ?_, ?_, ?_, ?_⟩
  · intro uri ls hsome l hl
    simp only [allDefinitions] at hsome
    rcases hidx : smapGet db.idxDocuments (toDatabase uri) with _ | value
    · rw [hidx] at hsome; cases hsome
    · simp only [hidx] at hsome
      rcases hloop : allDefsDocLoop db gfuel value.documents with _ | results
      · simp only [hloop] at hsome; cases hsome
      · simp only [hloop] at hsome
        by_cases hlen : results.length > 0
        · rw [if_pos hlen] at hsome
          rw [← Option.some.inj hsome] at hl
          exact of_decide_eq_true (List.mem_filter.mp hl).2
        · rw [if_neg hlen] at hsome; cases hsome
  · intro doc item hir
    cases item <;> simp_all [allDefsItem, isRangeVertex]
  · intro doc rid s e rp hrp hmsm
    simp [allDefsItem, hrp, hmsm]
  · intro doc rid s e rp m hrp hmsm hkind
    simp only [allDefsItem, hrp, hmsm]
    rw [if_pos hkind]
  · intro doc rid s e rp m idf hrp hmsm hid hends
    simp only [allDefsItem, hrp, hmsm]
    by_cases hkind : m.kind ≠ some .«export»
    · rw [if_pos hkind]
    · rw [if_neg hkind, hid]
      simp [hends]
  · intro doc rid s e rp m idf hrp hmsm hid hexcl
    simp only [allDefsItem, hrp, hmsm]
    by_cases hkind : m.kind ≠ some .«export»
    · rw [if_pos hkind]
    · rw [if_neg hkind, hid]
      by_cases hends : jsEndsWith idf "." = false
      · simp [hends]
      · have hend2 : jsEndsWith idf "." = true := by
          cases h2 : jsEndsWith idf "." with
          | false => exact absurd h2 hends
          | true => rfl
        simp only [hend2, Bool.not_true, Bool.false_eq_true, if_false]
        rcases hexcl with h | h | h <;> simp [h]

/-- Witness for claim C5: the concrete `allDefinitions` run on `c2db`
returns locations whose URI is the queried document itself. -/
theorem C5_all_definitions_filters_witness :
    allDefinitions c2db 100 "file:///a.ts" = some [c2loc, c2loc]
    ∧ c2loc.uri = toDatabase "file:///a.ts" := by
  have h := (C5_all_definitions_filters c2db 100).1 "file:///a.ts" [c2loc, c2loc]
    (by decide)
  exact ⟨by decide, h c2loc (by decide)⟩

theorem addLocation_keysOk (db : Db) (value : LocValue) :
    ∀ (result : List TLocation) (dedup : List LocKey), KeysOk result dedup →
      KeysOk (addLocation db result value dedup).1 (addLocation db result value dedup).2 := by
  intro result dedup h
  rcases hl : locValueToLocation db value with _ | loc
  · simp only [addLocation, hl]; exact h
  · simp only [addLocation, hl]
    by_cases hk : makeKey loc ∈ dedup
    · rw [if_pos hk]; exact h
    · rw [if_neg hk]
      constructor
      · intro l hl2
        rcases List.mem_append.mp hl2 with h1 | h1
        · exact List.mem_cons_of_mem _ (h.1 l h1)
        · rw [List.mem_singleton.mp h1]; exact List.mem_cons_self _ _
      · rw [List.pairwise_append]
        refine ⟨h.2, List.pairwise_singleton _ _, ?_⟩
        intro a ha b hb
        rw [List.mem_singleton.mp hb]
        intro heq
        exact hk (heq ▸ h.1 a ha)

theorem ftResolveTargets_keysOk (db : Db) (tr : Vertex) :
    ∀ st : FTState, KeysOk st.result st.dedupLocations →
      KeysOk (ftResolveTargets db st tr).result (ftResolveTargets db st tr).dedupLocations := by
  intro st h
  unfold ftResolveTargets
  rcases hio : itemOf db tr with _ | ranges
  · simp only [hio]; exact h
  · simp only [hio]
    refine foldl_preserve (fun s : FTState => KeysOk s.result s.dedupLocations) _ ?_ ranges st h
    intro s el hs
    cases el with
    | vertex v => exact addLocation_keysOk db (.vertex v) s.result s.dedupLocations hs
    | declarations r => exact hs
    | definitions r => exact hs
    | references r => exact hs
    | referenceResults r => exact hs
    | referenceLinks m => exact hs

theorem ftResolveTargets_fields (db : Db) (tr : Vertex) :
    ∀ st : FTState, (ftResolveTargets db st tr).dedupMonikers = st.dedupMonikers ∧
      (ftResolveTargets db st tr).expanded = st.expanded := by
  intro st
  unfold ftResolveTargets
  rcases hio : itemOf db tr with _ | ranges
  · simp [hio]
  · simp only [hio]
    refine foldl_preserve
      (fun s : FTState => s.dedupMonikers = st.dedupMonikers ∧ s.expanded = st.expanded)
      _ ?_ ranges st ⟨rfl, rfl⟩
    intro s el hs
    cases el with
    | vertex v => exact hs
    | declarations r => exact hs
    | definitions r => exact hs
    | references r => exact hs
    | referenceResults r => exact hs
    | referenceLinks m => exact hs

theorem expOk_insert {expanded dedup : List (Option MonikerKey)} {k : Option MonikerKey}
    (h : ExpOk expanded dedup) (hk : k ∉ dedup) :
    ExpOk (expanded ++ [k]) (k :: dedup) := by
  constructor
  · rw [List.nodup_append]
    refine ⟨h.1, List.nodup_singleton _, ?_⟩
    intro a ha hb
    rw [List.mem_singleton.mp hb] at ha
    exact hk (h.2 _ ha)
  · intro x hx
    rcases List.mem_append.mp hx with h1 | h1
    · exact List.mem_cons_of_mem _ (h.2 x h1)
    · rw [List.mem_singleton.mp h1]; exact List.mem_cons_self _ _

theorem ftExpandVertices_keysOk (db : Db) (gfuel : Nat) (edges : List (LsifId × Vertex))
    (matching : List MonikerAndKey) :
    ∀ st : FTState, KeysOk st.result st.dedupLocations →
      KeysOk (ftExpandVertices db gfuel edges st matching).result
        (ftExpandVertices db gfuel edges st matching).dedupLocations := by
  intro st h
  unfold ftExpandVertices
  refine foldl_preserve (fun s : FTState => KeysOk s.result s.dedupLocations)
    _ ?_ matching st h
  intro s mm hs
  rcases hfv : findVerticesForMoniker db mm with _ | vertices
  · simp only [hfv]; exact hs
  · simp only [hfv]
    refine foldl_preserve (fun s : FTState => KeysOk s.result s.dedupLocations)
      _ ?_ vertices _ hs
    intro s2 v hs2
    rcases hrp : getResultPath db gfuel v.id edges with _ | rp
    · simp only [hrp]; exact hs2
    · simp only [hrp]
      rcases hres : rp.result with _ | rv
      · simp only [hres]; exact hs2
      · simp only [hres]
        exact ftResolveTargets_keysOk db rv.value s2 hs2

theorem ftExpandVertices_fields (db : Db) (gfuel : Nat) (edges : List (LsifId × Vertex))
    (matching : List MonikerAndKey) :
    ∀ st : FTState, (ftExpandVertices db gfuel edges st matching).dedupMonikers = st.dedupMonikers ∧
      (ftExpandVertices db gfuel edges st matching).expanded = st.expanded := by
  intro st
  unfold ftExpandVertices
  refine foldl_preserve
    (fun s : FTState => s.dedupMonikers = st.dedupMonikers ∧ s.expanded = st.expanded)
    _ ?_ matching st ⟨rfl, rfl⟩
  intro s mm hs
  rcases hfv : findVerticesForMoniker db mm with _ | vertices
  · simp only [hfv]; exact hs
  · simp only [hfv]
    refine foldl_preserve
      (fun s : FTState => s.dedupMonikers = st.dedupMonikers ∧ s.expanded = st.expanded)
      _ ?_ vertices _ hs
    intro s2 v hs2
    rcases hrp : getResultPath db gfuel v.id edges with _ | rp
    · simp only [hrp]; exact hs2
    · simp only [hrp]
      rcases hres : rp.result with _ | rv
      · simp only [hres]; exact hs2
      · simp only [hres]
        have hfld := ftResolveTargets_fields db rv.value s2
        exact ⟨hfld.1.trans hs2.1, hfld.2.trans hs2.2⟩

theorem ftExpandMoniker_keysOk (db : Db) (gfuel : Nat) (edges : List (LsifId × Vertex))
    (m : MonikerAndKey) :
    ∀ st : FTState, KeysOk st.result st.dedupLocations →
      KeysOk (ftExpandMoniker db gfuel edges st m).result
        (ftExpandMoniker db gfuel edges st m).dedupLocations := by
  intro st h
  unfold ftExpandMoniker
  by_cases hk : m.key ∈ st.dedupMonikers
  · rw [if_pos hk]; exact h
  · rw [if_neg hk]
    rcases hmk : m.key with _ | k
    · simp only [hmk]; exact h
    · simp only [hmk]
      rcases hkm : kmapGet db.idxMonikers k with _ | matching
      · simp only [hkm]; exact h
      · simp only [hkm]
        exact ftExpandVertices_keysOk db gfuel edges matching _ h

theorem ftExpandMoniker_expOk (db : Db) (gfuel : Nat) (edges : List (LsifId × Vertex))
    (m : MonikerAndKey) :
    ∀ st : FTState, ExpOk st.expanded st.dedupMonikers →
      ExpOk (ftExpandMoniker db gfuel edges st m).expanded
        (ftExpandMoniker db gfuel edges st m).dedupMonikers := by
  intro st h
  unfold ftExpandMoniker
  by_cases hk : m.key ∈ st.dedupMonikers
  · rw [if_pos hk]; exact h
  · rw [if_neg hk]
    have hstep : ExpOk (st.expanded ++ [m.key]) (m.key :: st.dedupMonikers) :=
      expOk_insert h hk
    rcases hmk : m.key with _ | k
    · simp only [hmk]
      rw [hmk] at hstep
      exact hstep
    · simp only [hmk]
      rw [hmk] at hstep
      rcases hkm : kmapGet db.idxMonikers k with _ | matching
      · simp only [hkm]; exact hstep
      · simp only [hkm]
        have hf := ftExpandVertices_fields db gfuel edges matching ⟨st.result, st.dedupLocations, some k :: st.dedupMonikers, st.expanded ++ [some k]⟩
        rw [hf.1, hf.2]
        exact hstep

theorem ftRange_keysOk (db : Db) (gfuel : Nat) (edges : List (LsifId × Vertex)) (r : Vertex) :
    ∀ st : FTState, KeysOk st.result st.dedupLocations →
      KeysOk (ftRange db gfuel edges st r).result
        (ftRange db gfuel edges st r).dedupLocations := by
  intro st h
  unfold ftRange
  rcases hrp : getResultPath db gfuel r.id edges with _ | rp
  · simp only [hrp]; exact h
  · simp only [hrp]
    rcases hres : rp.result with _ | res
    · simp only [hres]; exact h
    · simp only [hres]
      have h1 := ftResolveTargets_keysOk db res.value st h
      refine foldl_preserve (fun s : FTState => KeysOk s.result s.dedupLocations)
        _ ?_ _ _ h1
      intro s mk hs
      exact ftExpandMoniker_keysOk db gfuel edges mk s hs

theorem ftRange_expOk (db : Db) (gfuel : Nat) (edges : List (LsifId × Vertex)) (r : Vertex) :
    ∀ st : FTState, ExpOk st.expanded st.dedupMonikers →
      ExpOk (ftRange db gfuel edges st r).expanded
        (ftRange db gfuel edges st r).dedupMonikers := by
  intro st h
  unfold ftRange
  rcases hrp : getResultPath db gfuel r.id edges with _ | rp
  · simp only [hrp]; exact h
  · simp only [hrp]
    rcases hres : rp.result with _ | res
    · simp only [hres]; exact h
    · simp only [hres]
      have hfld := ftResolveTargets_fields db res.value st
      have h1 : ExpOk (ftResolveTargets db st res.value).expanded
          (ftResolveTargets db st res.value).dedupMonikers := by
        rw [hfld.1, hfld.2]; exact h
      refine foldl_preserve (fun s : FTState => ExpOk s.expanded s.dedupMonikers)
        _ ?_ _ _ h1
      intro s mk hs
      exact ftExpandMoniker_expOk db gfuel edges mk s hs

theorem findTargetsRun_keysOk (db : Db) (gfuel : Nat) (uri : String) (pos : Position)
    (edges : List (LsifId × Vertex)) (st : FTState)
    (h : findTargetsRun db gfuel uri pos edges = some st) :
    KeysOk st.result st.dedupLocations := by
  unfold findTargetsRun at h
  rcases hfr : findRangesFromPosition db (toDatabase uri) pos with _ | ranges
  · rw [hfr] at h; cases h
  · rw [hfr] at h
    have h0 : KeysOk ([] : List TLocation) ([] : List LocKey) :=
      ⟨fun l hl => absurd hl (List.not_mem_nil l), List.Pairwise.nil⟩
    have := foldl_preserve (fun s : FTState => KeysOk s.result s.dedupLocations)
      _ (fun s r hs => ftRange_keysOk db gfuel edges r s hs) ranges ⟨[], [], [], []⟩ h0
    rw [← Option.some.inj h]
    exact this

theorem findTargetsRun_expOk (db : Db) (gfuel : Nat) (uri : String) (pos : Position)
    (edges : List (LsifId × Vertex)) (st : FTState)
    (h : findTargetsRun db gfuel uri pos edges = some st) :
    ExpOk st.expanded st.dedupMonikers := by
  unfold findTargetsRun at h
  rcases hfr : findRangesFromPosition db (toDatabase uri) pos with _ | ranges
  · rw [hfr] at h; cases h
  · rw [hfr] at h
    have h0 : ExpOk ([] : List (Option MonikerKey)) [] :=
      ⟨List.nodup_nil, fun k hk => absurd hk (List.not_mem_nil k)⟩
    have := foldl_preserve (fun s : FTState => ExpOk s.expanded s.dedupMonikers)
      _ (fun s r hs => ftRange_expOk db gfuel edges r s hs) ranges ⟨[], [], [], []⟩ h0
    rw [← Option.some.inj h]
    exact this

theorem refAddLocation_keysOk (db : Db) (v : Vertex) :
    ∀ st : RefState, KeysOk st.result st.dedupLocations →
      KeysOk (refAddLocation db st v).result (refAddLocation db st v).dedupLocations := by
  intro st h
  exact addLocation_keysOk db (.vertex v) st.result st.dedupLocations h

theorem refAddLocation_fields (db : Db) (v : Vertex) (st : RefState) :
    (refAddLocation db st v).dedupMonikers = st.dedupMonikers ∧
      (refAddLocation db st v).expanded = st.expanded := ⟨rfl, rfl⟩

theorem resolveRefTargets_cons (db : Db) (context : RefContext) (fuel : Nat)
    (st : RefState) (t : ItemTarget) (ts : List ItemTarget) :
    resolveRefTargets db context (fuel + 1) st (t :: ts) =
      resolveRefTargets db context fuel
        (match t with
          | .declarations r =>
            if context.includeDeclaration then refAddLocation db st r else st
          | .definitions r =>
            if context.includeDeclaration then refAddLocation db st r else st
          | .references r => refAddLocation db st r
          | .referenceResults res =>
            match itemOf db res with
            | none => st
            | some targets => resolveRefTargets db context fuel st targets
          | .referenceLinks m => { st with monikers := st.monikers ++ [m] }
          | .vertex v => if isRangeVertex v then refAddLocation db st v else st)
        ts := rfl

theorem resolveRefTargets_keysOk (db : Db) (context : RefContext) :
    ∀ (fuel : Nat) (ts : List ItemTarget) (st : RefState),
      KeysOk st.result st.dedupLocations →
      KeysOk (resolveRefTargets db context fuel st ts).result
        (resolveRefTargets db context fuel st ts).dedupLocations := by
  intro fuel
  induction fuel with
  | zero => intro ts st h; exact h
  | succ fuel ih =>
    intro ts st h
    cases ts with
    | nil => exact h
    | cons t ts' =>
      rw [resolveRefTargets_cons]
      refine ih ts' _ ?_
      cases t with
      | declarations r =>
        cases hb : context.includeDeclaration
        · simpa using h
        · simpa using refAddLocation_keysOk db r st h
      | definitions r =>
        cases hb : context.includeDeclaration
        · simpa using h
        · simpa using refAddLocation_keysOk db r st h
      | references r => exact refAddLocation_keysOk db r st h
      | referenceResults res =>
        rcases hio : itemOf db res with _ | targets
        · simpa [hio] using h
        · simpa [hio] using ih targets st h
      | referenceLinks m => exact h
      | vertex v =>
        by_cases hv : isRangeVertex v = true
        · simpa [hv] using refAddLocation_keysOk db v st h
        · simpa [hv] using h

theorem resolveRefTargets_fields (db : Db) (context : RefContext) :
    ∀ (fuel : Nat) (ts : List ItemTarget) (st : RefState),
      (resolveRefTargets db context fuel st ts).dedupMonikers = st.dedupMonikers ∧
        (resolveRefTargets db context fuel st ts).expanded = st.expanded := by
  intro fuel
  induction fuel with
  | zero => intro ts st; exact ⟨rfl, rfl⟩
  | succ fuel ih =>
    intro ts st
    cases ts with
    | nil => exact ⟨rfl, rfl⟩
    | cons t ts' =>
      rw [resolveRefTargets_cons]
      cases t with
      | declarations r =>
        cases hb : context.includeDeclaration
        · simpa using ih ts' st
        · have h2 := ih ts' (refAddLocation db st r)
          have h3 := refAddLocation_fields db r st
          simpa using ⟨h2.1.trans h3.1, h2.2.trans h3.2⟩
      | definitions r =>
        cases hb : context.includeDeclaration
        · simpa using ih ts' st
        · have h2 := ih ts' (refAddLocation db st r)
          have h3 := refAddLocation_fields db r st
          simpa using ⟨h2.1.trans h3.1, h2.2.trans h3.2⟩
      | references r =>
        have h2 := ih ts' (refAddLocation db st r)
        have h3 := refAddLocation_fields db r st
        exact ⟨h2.1.trans h3.1, h2.2.trans h3.2⟩
      | referenceResults res =>
        rcases hio : itemOf db res with _ | targets
        · simpa [hio] using ih ts' st
        · have h2 := ih ts' (resolveRefTargets db context fuel st targets)
          have h3 := ih targets st
          simpa [hio] using ⟨h2.1.trans h3.1, h2.2.trans h3.2⟩
      | referenceLinks m =>
        simpa using ih ts' { st with monikers := st.monikers ++ [m] }
      | vertex v =>
        by_cases hv : isRangeVertex v = true
        · have h2 := ih ts' (refAddLocation db st v)
          have h3 := refAddLocation_fields db v st
          simpa [hv] using ⟨h2.1.trans h3.1, h2.2.trans h3.2⟩
        · simpa [hv] using ih ts' st

theorem resolveReferenceResult_keysOk (db : Db) (context : RefContext) (fuel : Nat)
    (res : Vertex) :
    ∀ st : RefState, KeysOk st.result st.dedupLocations →
      KeysOk (resolveReferenceResult db context fuel st res).result
        (resolveReferenceResult db context fuel st res).dedupLocations := by
  intro st h
  unfold resolveReferenceResult
  rcases hio : itemOf db res with _ | targets
  · simp only [hio]; exact h
  · simp only [hio]
    exact resolveRefTargets_keysOk db context fuel targets st h

theorem resolveReferenceResult_fields (db : Db) (context : RefContext) (fuel : Nat)
    (res : Vertex) (st : RefState) :
    (resolveReferenceResult db context fuel st res).dedupMonikers = st.dedupMonikers ∧
      (resolveReferenceResult db context fuel st res).expanded = st.expanded := by
  unfold resolveReferenceResult
  rcases hio : itemOf db res with _ | targets
  · simp [hio]
  · simp only [hio]
    exact resolveRefTargets_fields db context fuel targets st

theorem refExpandVertices_keysOk (db : Db) (gfuel : Nat) (context : RefContext)
    (matching : List MonikerAndKey) :
    ∀ st : RefState, KeysOk st.result st.dedupLocations →
      KeysOk (refExpandVertices db gfuel context st matching).result
        (refExpandVertices db gfuel context st matching).dedupLocations := by
  intro st h
  unfold refExpandVertices
  refine foldl_preserve (fun s : RefState => KeysOk s.result s.dedupLocations)
    _ ?_ matching st h
  intro s mm hs
  rcases hfv : findVerticesForMoniker db mm with _ | vertices
  · simp only [hfv]; exact hs
  · simp only [hfv]
    refine foldl_preserve (fun s : RefState => KeysOk s.result s.dedupLocations)
      _ ?_ vertices _ hs
    intro s2 v hs2
    rcases hrp : getResultPath db gfuel v.id db.outReferences with _ | rp
    · simp only [hrp]; exact hs2
    · simp only [hrp]
      rcases hres : rp.result with _ | rv
      · simp only [hres]; exact hs2
      · simp only [hres]
        exact resolveReferenceResult_keysOk db context gfuel rv.value s2 hs2

theorem refExpandVertices_fields (db : Db) (gfuel : Nat) (context : RefContext)
    (matching : List MonikerAndKey) :
    ∀ st : RefState,
      (refExpandVertices db gfuel context st matching).dedupMonikers = st.dedupMonikers ∧
        (refExpandVertices db gfuel context st matching).expanded = st.expanded := by
  intro st
  unfold refExpandVertices
  refine foldl_preserve
    (fun s : RefState => s.dedupMonikers = st.dedupMonikers ∧ s.expanded = st.expanded)
    _ ?_ matching st ⟨rfl, rfl⟩
  intro s mm hs
  rcases hfv : findVerticesForMoniker db mm with _ | vertices
  · simp only [hfv]; exact hs
  · simp only [hfv]
    refine foldl_preserve
      (fun s : RefState => s.dedupMonikers = st.dedupMonikers ∧ s.expanded = st.expanded)
      _ ?_ vertices _ hs
    intro s2 v hs2
    rcases hrp : getResultPath db gfuel v.id db.outReferences with _ | rp
    · simp only [hrp]; exact hs2
    · simp only [hrp]
      rcases hres : rp.result with _ | rv
      · simp only [hres]; exact hs2
      · simp only [hres]
        have hfld := resolveReferenceResult_fields db context gfuel rv.value s2
        exact ⟨hfld.1.trans hs2.1, hfld.2.trans hs2.2⟩

theorem refMonikerLoop_succ (db : Db) (gfuel : Nat) (context : RefContext)
    (lfuel : Nat) (st : RefState) (i : Nat) :
    refMonikerLoop db gfuel context (lfuel + 1) st i =
      match st.monikers.get? i with
      | none => st
      | some moniker =>
        if moniker.key ∈ st.dedupMonikers then
          refMonikerLoop db gfuel context lfuel st (i + 1)
        else
          refMonikerLoop db gfuel context lfuel
            (match moniker.key with
              | none => ⟨st.result, st.dedupLocations, st.monikers,
                  moniker.key :: st.dedupMonikers, st.expanded ++ [moniker.key]⟩
              | some k =>
                match kmapGet db.idxMonikers k with
                | none => ⟨st.result, st.dedupLocations, st.monikers,
                    moniker.key :: st.dedupMonikers, st.expanded ++ [moniker.key]⟩
                | some matching =>
                  refExpandVertices db gfuel context
                    ⟨st.result, st.dedupLocations, st.monikers,
                      moniker.key :: st.dedupMonikers, st.expanded ++ [moniker.key]⟩
                    matching)
            (i + 1) := rfl

theorem refMonikerLoop_keysOk (db : Db) (gfuel : Nat) (context : RefContext) :
    ∀ (lfuel : Nat) (st : RefState) (i : Nat),
      KeysOk st.result st.dedupLocations →
      KeysOk (refMonikerLoop db gfuel context lfuel st i).result
        (refMonikerLoop db gfuel context lfuel st i).dedupLocations := by
  intro lfuel
  induction lfuel with
  | zero => intro st i h; exact h
  | succ lfuel ih =>
    intro st i h
    rw [refMonikerLoop_succ]
    rcases hm : st.monikers.get? i with _ | moniker
    · simp only [hm]; exact h
    · simp only [hm]
      by_cases hk : moniker.key ∈ st.dedupMonikers
      · rw [if_pos hk]; exact ih st (i + 1) h
      · rw [if_neg hk]
        rcases hmk : moniker.key with _ | k
        · simp only [hmk]; exact ih _ _ h
        · simp only [hmk]
          rcases hkm : kmapGet db.idxMonikers k with _ | matching
          · simp only [hkm]; exact ih _ _ h
          · simp only [hkm]
            exact ih _ _ (refExpandVertices_keysOk db gfuel context matching _ h)

theorem refMonikerLoop_expOk (db : Db) (gfuel : Nat) (context : RefContext) :
    ∀ (lfuel : Nat) (st : RefState) (i : Nat),
      ExpOk st.expanded st.dedupMonikers →
      ExpOk (refMonikerLoop db gfuel context lfuel st i).expanded
        (refMonikerLoop db gfuel context lfuel st i).dedupMonikers := by
  intro lfuel
  induction lfuel with
  | zero => intro st i h; exact h
  | succ lfuel ih =>
    intro st i h
    rw [refMonikerLoop_succ]
    rcases hm : st.monikers.get? i with _ | moniker
    · simp only [hm]; exact h
    · simp only [hm]
      by_cases hk : moniker.key ∈ st.dedupMonikers
      · rw [if_pos hk]; exact ih st (i + 1) h
      · rw [if_neg hk]
        have hins : ExpOk (st.expanded ++ [moniker.key])
            (moniker.key :: st.dedupMonikers) := expOk_insert h hk
        rcases hmk : moniker.key with _ | k
        · simp only [hmk]
          rw [hmk] at hins
          exact ih _ _ hins
        · simp only [hmk]
          rw [hmk] at hins
          rcases hkm : kmapGet db.idxMonikers k with _ | matching
          · simp only [hkm]; exact ih _ _ hins
          · simp only [hkm]
            refine ih _ _ ?_
            have hf := refExpandVertices_fields db gfuel context matching
              ⟨st.result, st.dedupLocations, st.monikers,
                some k :: st.dedupMonikers, st.expanded ++ [some k]⟩
            rw [hf.1, hf.2]
            exact hins

theorem refRange_keysOk (db : Db) (gfuel : Nat) (context : RefContext) (r : Vertex) :
    ∀ st : RefState, KeysOk st.result st.dedupLocations →
      KeysOk (refRange db gfuel context st r).result
        (refRange db gfuel context st r).dedupLocations := by
  intro st h
  unfold refRange
  rcases hrp : getResultPath db gfuel r.id db.outReferences with _ | rp
  · simp only [hrp]; exact h
  · simp only [hrp]
    rcases hres : rp.result with _ | res
    · simp only [hres]; exact h
    · simp only [hres]
      exact refMonikerLoop_keysOk db gfuel context gfuel _ 0
        (resolveReferenceResult_keysOk db context gfuel res.value _ h)

theorem refRange_expOk (db : Db) (gfuel : Nat) (context : RefContext) (r : Vertex) :
    ∀ st : RefState, ExpOk st.expanded st.dedupMonikers →
      ExpOk (refRange db gfuel context st r).expanded
        (refRange db gfuel context st r).dedupMonikers := by
  intro st h
  unfold refRange
  rcases hrp : getResultPath db gfuel r.id db.outReferences with _ | rp
  · simp only [hrp]; exact h
  · simp only [hrp]
    rcases hres : rp.result with _ | res
    · simp only [hres]; exact h
    · simp only [hres]
      refine refMonikerLoop_expOk db gfuel context gfuel _ 0 ?_
      have hf := resolveReferenceResult_fields db context gfuel res.value
        ⟨st.result, st.dedupLocations,
          (match getMostSpecificMoniker rp with | some m => [m] | none => []),
          st.dedupMonikers, st.expanded⟩
      rw [hf.1, hf.2]
      exact h

theorem referencesRun_keysOk (db : Db) (gfuel : Nat) (uri : String) (pos : Position)
    (context : RefContext) (st : RefState)
    (h : referencesRun db gfuel uri pos context = some st) :
    KeysOk st.result st.dedupLocations := by
  unfold referencesRun at h
  rcases hfr : findRangesFromPosition db (toDatabase uri) pos with _ | ranges
  · rw [hfr] at h; cases h
  · rw [hfr] at h
    have h0 : KeysOk ([] : List TLocation) ([] : List LocKey) :=
      ⟨fun l hl => absurd hl (List.not_mem_nil l), List.Pairwise.nil⟩
    have := foldl_preserve (fun s : RefState => KeysOk s.result s.dedupLocations)
      _ (fun s r hs => refRange_keysOk db gfuel context r s hs) ranges
      ⟨[], [], [], [], []⟩ h0
    rw [← Option.some.inj h]
    exact this

theorem referencesRun_expOk (db : Db) (gfuel : Nat) (uri : String) (pos : Position)
    (context : RefContext) (st : RefState)
    (h : referencesRun db gfuel uri pos context = some st) :
    ExpOk st.expanded st.dedupMonikers := by
  unfold referencesRun at h
  rcases hfr : findRangesFromPosition db (toDatabase uri) pos with _ | ranges
  · rw [hfr] at h; cases h
  · rw [hfr] at h
    have h0 : ExpOk ([] : List (Option MonikerKey)) [] :=
      ⟨List.nodup_nil, fun k hk => absurd hk (List.not_mem_nil k)⟩
    have := foldl_preserve (fun s : RefState => ExpOk s.expanded s.dedupMonikers)
      _ (fun s r hs => refRange_expOk db gfuel context r s hs) ranges
      ⟨[], [], [], [], []⟩ h0
    rw [← Option.some.inj h]
    exact this

theorem makeKey_congr {a b : TLocation} (hu : a.uri = b.uri) (hr : a.range = b.range) :
    makeKey a = makeKey b := by
  simp [makeKey, hu, hr]

theorem keysOk_locationsDistinct {result : List TLocation} {dedup : List LocKey}
    (h : KeysOk result dedup) : locationsDistinct result := by
  refine h.2.imp ?_
  intro a b hne hcon
  exact hne (makeKey_congr hcon.1 hcon.2)

/-- Claim C2 counterexample: `allDefinitions` concatenates the results
of one `definitions` call per surviving range without a cross-call
dedup set, so in `c2db` — where two exported ranges resolve to the same
definition location — it returns that location twice. -/
theorem C2_all_definitions_duplicate :
    allDefinitions c2db 100 "file:///a.ts" = some [c2loc, c2loc]
    ∧ ¬ locationsDistinct [c2loc, c2loc] := by
  constructor
  · decide
  · intro h
    rcases List.pairwise_cons.mp h with ⟨h1, _⟩
    exact h1 c2loc (List.mem_singleton.mpr rfl) ⟨rfl, rfl⟩

/-- Claim C2, amended: within one top-level `declarations`,
`definitions` or `references` query the returned list never contains
two locations with the same URI and identical range; `allDefinitions`
does not share this guarantee (see the counterexample). -/
theorem C2_queries_never_return_duplicates :
    (∀ (db : Db) (gfuel : Nat) (uri : String) (pos : Position) (ls : List TLocation),
      declarations db gfuel uri pos = some (.list ls) → locationsDistinct ls)
    ∧ (∀ (db : Db) (gfuel : Nat) (uri : String) (pos : Position) (ls : List TLocation),
      definitions db gfuel uri pos = some (.list ls) → locationsDistinct ls)
    ∧ (∀ (db : Db) (gfuel : Nat) (uri : String) (pos : Position) (context : RefContext)
        (ls : List TLocation),
      references db gfuel uri pos context = some ls → locationsDistinct ls) := by
  refine ⟨?_, ?_, ?_⟩
  · intro db gfuel uri pos ls h
    unfold declarations findTargets at h
    rcases hrun : findTargetsRun db gfuel uri pos db.outDeclaration with _ | st
    · rw [hrun] at h; cases h
    · rw [hrun] at h
      have hst := findTargetsRun_keysOk db gfuel uri pos db.outDeclaration st hrun
      have : st.result = ls := LocationResult.list.inj (Option.some.inj h)
      rw [← this]
      exact keysOk_locationsDistinct hst
  · intro db gfuel uri pos ls h
    unfold definitions findTargets at h
    rcases hrun : findTargetsRun db gfuel uri pos db.outDefinition with _ | st
    · rw [hrun] at h; cases h
    · rw [hrun] at h
      have hst := findTargetsRun_keysOk db gfuel uri pos db.outDefinition st hrun
      have : st.result = ls := LocationResult.list.inj (Option.some.inj h)
      rw [← this]
      exact keysOk_locationsDistinct hst
  · intro db gfuel uri pos context ls h
    unfold references at h
    rcases hrun : referencesRun db gfuel uri pos context with _ | st
    · rw [hrun] at h; cases h
    · rw [hrun] at h
      have hst := referencesRun_keysOk db gfuel uri pos context st hrun
      rw [← Option.some.inj h]
      exact keysOk_locationsDistinct hst

/-- Witness for the amended claim C2: a concrete definitions query on
`c2db` returns a duplicate-free list. -/
theorem C2_queries_never_return_duplicates_witness :
    definitions c2db 100 "file:///a.ts" ⟨0, 0⟩ = some (.list [c2loc])
    ∧ locationsDistinct [c2loc] := by
  refine ⟨by decide, ?_⟩
  exact C2_queries_never_return_duplicates.2.1 c2db 100 "file:///a.ts" ⟨0, 0⟩ [c2loc]
    (by decide)

/-- Claim C7: within one top-level query (declarations/definitions via
`findTargetsRun`, references via `referencesRun`, including monikers
discovered through reference links), each moniker identity key enters
the cross-dump expansion at most once: the ghost trace of expanded keys
has no duplicates. -/
theorem C7_moniker_key_expanded_at_most_once :
    (∀ (db : Db) (gfuel : Nat) (uri : String) (pos : Position)
      (edges : List (LsifId × Vertex)) (st : FTState),
      findTargetsRun db gfuel uri pos edges = some st → st.expanded.Nodup)
    ∧ (∀ (db : Db) (gfuel : Nat) (uri : String) (pos : Position)
        (context : RefContext) (st : RefState),
      referencesRun db gfuel uri pos context = some st → st.expanded.Nodup) := by
  constructor
  · intro db gfuel uri pos edges st h
    exact (findTargetsRun_expOk db gfuel uri pos edges st h).1
  · intro db gfuel uri pos context st h
    exact (referencesRun_expOk db gfuel uri pos context st h).1

/-- Witness for claim C7 at the concrete store `c2db`, whose definition
query expands exactly one moniker key. -/
theorem C7_moniker_key_expanded_at_most_once_witness :
    findTargetsRun c2db 100 "file:///a.ts" ⟨0, 0⟩ c2db.outDefinition = some c7ftState
    ∧ c7ftState.expanded.Nodup
    ∧ referencesRun c2db 100 "file:///a.ts" ⟨0, 0⟩ ⟨true⟩ = some c7refState
    ∧ c7refState.expanded.Nodup := by
  refine ⟨by decide, ?_, by decide, ?_⟩
  · exact C7_moniker_key_expanded_at_most_once.1 c2db 100 "file:///a.ts" ⟨0, 0⟩
      c2db.outDefinition c7ftState (by decide)
  · exact C7_moniker_key_expanded_at_most_once.2 c2db 100 "file:///a.ts" ⟨0, 0⟩
      ⟨true⟩ c7refState (by decide)

theorem mapGet_ne_none_mem {β : Type} (m : List (LsifId × β)) (k : LsifId)
    (h : mapGet m k ≠ none) : k ∈ m.map Prod.fst := by
  induction m with
  | nil => exact absurd rfl h
  | cons p rest ih =>
    rcases p with ⟨a, b⟩
    by_cases hak : a = k
    · simp [hak]
    · have hrest : mapGet rest k ≠ none := by
        intro hn
        apply h
        simp [mapGet, hak, hn]
      simpa using Or.inr (ih hrest)

theorem getResultPath_none_chain (db : Db) (edges : List (LsifId × Vertex)) :
    ∀ (f : Nat) (i : LsifId), getResultPath db f i edges = none →
      ∀ k, k < f → ∃ a, nextIter db k i = some a ∧ mapGet db.outNext a ≠ none := by
  intro f
  induction f with
  | zero => intro i h k hk; exact absurd hk (Nat.not_lt_zero k)
  | succ f ih =>
    intro i h k hk
    rcases he : mapGet edges i with _ | value
    · rcases hn : mapGet db.outNext i with _ | nxt
      · exfalso
        simp [getResultPath, he, hn] at h
      · cases k with
        | zero =>
          refine ⟨i, rfl, ?_⟩
          rw [hn]
          simp
        | succ k' =>
          have hrec : getResultPath db f nxt.id edges = none := by
            simp only [getResultPath, he, hn] at h
            rcases hr : getResultPath db f nxt.id edges with _ | rp
            · rfl
            · rw [hr] at h; cases h
          rcases ih nxt.id hrec k' (Nat.lt_of_succ_lt_succ hk) with ⟨a, ha1, ha2⟩
          refine ⟨a, ?_, ha2⟩
          simp only [nextIter, hn]
          exact ha1
    · exfalso
      simp [getResultPath, he] at h

/-- Claim C8: for a starting vertex whose chain of `next` edges is
acyclic, path resolution terminates (for a large enough fuel the walk
returns a result entry or a no-result trail); for a starting vertex on
a `next`-edge cycle none of whose members has a direct entry in the
relation map, the walk exhausts any amount of fuel — the source's
unbounded loop would not terminate. -/
theorem C8_path_resolution_termination :
    (∀ (db : Db) (edges : List (LsifId × Vertex)) (start : LsifId),
      chainAcyclic db start →
      ∃ fuel rp, getResultPath db fuel start edges = some rp)
    ∧ (∀ (db : Db) (edges : List (LsifId × Vertex)) (start : LsifId) (S : List LsifId),
      start ∈ S →
      (∀ a ∈ S, mapGet edges a = none ∧
        ∃ v, mapGet db.outNext a = some v ∧ v.id ∈ S) →
      ∀ fuel, getResultPath db fuel start edges = none) := by
  constructor
  · intro db edges start hacyc
    refine ⟨db.outNext.length + 1, ?_⟩
    rcases hg : getResultPath db (db.outNext.length + 1) start edges with _ | rp
    · exfalso
      have hchain := getResultPath_none_chain db edges (db.outNext.length + 1) start hg
      have hgs : ∀ k, k < db.outNext.length + 1 →
          nextIter db k start = some ((nextIter db k start).getD 0) := by
        intro k hk
        rcases hchain k hk with ⟨a, ha, _⟩
        rw [ha]
        rfl
      have hnodup : ((List.range (db.outNext.length + 1)).map
          (fun k => (nextIter db k start).getD 0)).Nodup := by
        refine List.Nodup.map_on ?_ (List.nodup_range (db.outNext.length + 1))
        intro x hx y hy hxy
        rw [List.mem_range] at hx hy
        have hx' := hgs x hx
        have hy' := hgs y hy
        rw [hxy] at hx'
        exact hacyc x y _ hx' hy'
      have hsub : (List.range (db.outNext.length + 1)).map
          (fun k => (nextIter db k start).getD 0) ⊆ db.outNext.map Prod.fst := by
        intro x hx
        rcases List.mem_map.mp hx with ⟨k, hk, hgk⟩
        rw [List.mem_range] at hk
        rcases hchain k hk with ⟨a, ha, hnx⟩
        have hga : (nextIter db k start).getD 0 = a := by rw [ha]; rfl
        rw [← hgk, hga]
        exact mapGet_ne_none_mem _ _ hnx
      have hlen := (hnodup.subperm hsub).length_le
      simp at hlen
    · exact ⟨rp, rfl⟩
  · intro db edges start S hstart hS fuel
    induction fuel generalizing start with
    | zero => rfl
    | succ fuel ih =>
      rcases hS start hstart with ⟨he, v, hv, hvS⟩
      have hrec := ih v.id hvS
      simp [getResultPath, he, hv, hrec]

/-- Witness for claim C8: the empty store has an acyclic (empty) chain
from vertex 1 and its walk terminates; `c8cycDb` has a `next` self-loop
at vertex 1 and its walk returns nothing at any fuel. -/
theorem C8_path_resolution_termination_witness :
    (∃ fuel rp, getResultPath initialDb fuel 1 [] = some rp)
    ∧ getResultPath c8cycDb 5 1 [] = none := by
  constructor
  · refine C8_path_resolution_termination.1 initialDb [] 1 ?_
    intro m n a hm hn
    cases m with
    | zero =>
      cases n with
      | zero => rfl
      | succ n' => simp [nextIter, mapGet, initialDb] at hn
    | succ m' => simp [nextIter, mapGet, initialDb] at hm
  · exact C8_path_resolution_termination.2 c8cycDb [] 1 [1] (by decide)
      (fun a ha => by
        have ha1 : a = 1 := by simpa using ha
        subst ha1
        exact ⟨rfl, Vertex.resultSet 1, by decide, by decide⟩) 5
